import Mathlib

/-!
# The font table codec of `pkg/font.go`

A shallow embedding of `FontTable.GetTextMetrics`, `FontTable.Decode` and
`FontTable.Encode`, followed by the properties proved about them.

Conventions of the embedding:

* a byte is a `Fin 256`; a stream is the list of the bytes not yet consumed;
* Go's `int` and `rune` are `Int`; the narrowing conversions `byte(x)` are
  written out as `x % 256`, the widening ones (`int(b)`, `rune(code)`) keep the
  value; the additions of `GetTextMetrics` are those of the 64-bit `int`, which
  wrap around into `-2^63 .. 2^63 - 1`;
* Go's `error` is `Option Error` (`none` is `nil`), a value with an error is an
  `Except Error`;
* a Go map is an association list searched from the front; the order of the
  list stands for the order in which `range` visits the map, which Go leaves
  unspecified.
-/

namespace TblFont

/-- One byte. -/
abbrev Byte := Fin 256

/-- Go's `rune` (an `int32`). -/
abbrev Rune := Int

/-- The errors the codec can return: a cursor that cannot deliver the bytes
asked for, `fmt.Errorf("invalid font table format")`, and whatever a writer
reports (told apart by a number). -/
inductive Error where
  | shortRead
  | invalidFormat
  | sink (code : Nat)
deriving DecidableEq, Repr

/-- The constant `knownSignature = "Woo!\x01"` as bytes. -/
def knownSignature : List Byte := [87, 111, 111, 33, 1]

/-- The constant `numHeaderBytes`. -/
def numHeaderBytes : Nat := 12

/-- The constant `bytesPerGlyph`. -/
def bytesPerGlyph : Nat := 14

/-- The constant `signatureBytesCount`. -/
def signatureBytesCount : Nat := 5

/-- The constant `unknownHeaderBytesCount`. -/
def unknownHeaderBytesCount : Nat := 7

/-- The constant `unknown1BytesCount`. -/
def unknown1BytesCount : Nat := 1

/-- The constant `unknown2BytesCount`. -/
def unknown2BytesCount : Nat := 3

/-- The constant `unknown3BytesCount`. -/
def unknown3BytesCount : Nat := 4

/-! ## The glyph record -/

/-- Modelled from the spec: the type `FontGlyph` (its declaration is not among
the sources). A glyph carries a frame index, a width and a height, which the
code handles as `int`, and the filler fields of 1, 3 and 4 bytes. -/
structure FontGlyph where
  unknown1 : Byte
  unknown2 : Byte × Byte × Byte
  unknown3 : Byte × Byte × Byte × Byte
  frame : Int
  width : Int
  height : Int
deriving DecidableEq, Repr

/-- Modelled from the spec: the constructor `newGlyph(frame, width, height)`,
called by `Decode` with these three arguments only; the filler fields get the
constants observed in the format (`0`, `1,0,0` and `1,0,0,0`). -/
def newGlyph (frame width height : Int) : FontGlyph :=
  { unknown1 := 0, unknown2 := (1, 0, 0), unknown3 := (1, 0, 0, 0),
    frame := frame, width := width, height := height }

/-- The accessor `Width()`. -/
def FontGlyph.Width (g : FontGlyph) : Int := g.width

/-- The accessor `Height()`. -/
def FontGlyph.Height (g : FontGlyph) : Int := g.height

/-- The accessor `FrameIndex()`. -/
def FontGlyph.FrameIndex (g : FontGlyph) : Int := g.frame

/-- The accessor `Unknown1()`: the 1 filler byte. -/
def FontGlyph.Unknown1 (g : FontGlyph) : List Byte := [g.unknown1]

/-- The accessor `Unknown2()`: the 3 filler bytes. -/
def FontGlyph.Unknown2 (g : FontGlyph) : List Byte :=
  [g.unknown2.1, g.unknown2.2.1, g.unknown2.2.2]

/-- The accessor `Unknown3()`: the 4 filler bytes. -/
def FontGlyph.Unknown3 (g : FontGlyph) : List Byte :=
  [g.unknown3.1, g.unknown3.2.1, g.unknown3.2.2.1, g.unknown3.2.2.2]

/-! ## The table -/

/-- The Go type `map[rune]*FontGlyph`. -/
abbrev GlyphMap := List (Rune × FontGlyph)

/-- The map read `m[c]` with its `ok` flag. -/
def mapGet : GlyphMap → Rune → Option FontGlyph
  | [], _ => none
  | (k, g) :: rest, c => if k = c then some g else mapGet rest c

/-- The map write `m[c] = g`: any entry under `c` is replaced. -/
def mapSet (m : GlyphMap) (c : Rune) (g : FontGlyph) : GlyphMap :=
  (c, g) :: m.filter (fun e => !decide (e.1 = c))

/-- The type `FontTable`. -/
structure FontTable where
  Glyphs : GlyphMap
deriving DecidableEq, Repr

/-- The function `max` of `font.go`. -/
def max (a b : Int) : Int := if a > b then a else b

/-! ## GetTextMetrics -/

/-- The value a 64-bit `int` takes for the number `x`: `x` itself from `-2^63`
to `2^63 - 1`, and the number of that range that differs from `x` by a multiple
of `2^64` otherwise. -/
def wrapInt (x : Int) : Int :=
  (x + 9223372036854775808) % 18446744073709551616 - 9223372036854775808

/-- The addition `a + b` of Go on `int`, which wraps around. -/
def addInt (a b : Int) : Int := wrapInt (a + b)

/-- The four variables of the loop of `GetTextMetrics`. -/
structure MetricsState where
  width : Int
  height : Int
  lineWidth : Int
  lineHeight : Int
deriving DecidableEq, Repr

/-- One iteration of `for _, c := range text`. -/
def metricsStep (f : FontTable) (st : MetricsState) (c : Rune) : MetricsState :=
  if c = 10 then
    { width := max st.width st.lineWidth, height := addInt st.height st.lineHeight,
      lineWidth := 0, lineHeight := 0 }
  else
    match mapGet f.Glyphs c with
    | some glyph =>
      { st with lineWidth := addInt st.lineWidth glyph.Width,
                lineHeight := max st.lineHeight glyph.Height }
    | none => st

/-- The method `GetTextMetrics`; `text` is the sequence of runes that `range`
yields for the string. -/
def FontTable.GetTextMetrics (f : FontTable) (text : List Rune) : Int × Int :=
  let st := text.foldl (metricsStep f) { width := 0, height := 0, lineWidth := 0, lineHeight := 0 }
  (max st.width st.lineWidth, addInt st.height st.lineHeight)

/-! ## The byte cursor -/

/-- Modelled from the spec: the reader of package `bitstream`, an outside
library that is not among the sources. The cursor holds the bytes not yet
consumed. A request for `n` bytes delivers them when at least `n` remain and is
an error otherwise ("fewer bytes available than requested" is always an
error); either way the cursor has moved past what it could take, as a reader
over an `io.Reader` does, so that after a failed request nothing remains. -/
structure Reader where
  data : List Byte
deriving DecidableEq, Repr

/-- Modelled from the spec: `stream.Next(n).Bytes()` with its result dropped,
the skip of `n` bytes; a failure is not seen by the caller. -/
def Reader.skip (r : Reader) (n : Nat) : Reader := ⟨r.data.drop n⟩

/-- Modelled from the spec: `stream.Next(n).Bytes().AsBytes()`. -/
def Reader.AsBytes (r : Reader) (n : Nat) : Except Error (List Byte) × Reader :=
  (if n ≤ r.data.length then .ok (r.data.take n) else .error .shortRead, r.skip n)

/-- Modelled from the spec: `stream.Next(2).Bytes().AsUInt16()`, two bytes
read as a little-endian number. -/
def Reader.AsUInt16 (r : Reader) : Except Error Nat × Reader :=
  (match r.data with
   | b0 :: b1 :: _ => .ok (b0.val + 256 * b1.val)
   | _ => .error .shortRead, r.skip 2)

/-- Modelled from the spec: `stream.Next(1).Bytes().AsByte()`. -/
def Reader.AsByte (r : Reader) : Except Error Byte × Reader :=
  (match r.data with
   | b :: _ => .ok b
   | [] => .error .shortRead, r.skip 1)

/-! ## Decode -/

/-- What one pass through the body of the record loop of `Decode` does: it
leaves the loop (`break`), returns an error, or has a glyph to store. -/
inductive RecordStep where
  | stop
  | fail (err : Error)
  | glyph (code : Nat) (g : FontGlyph)
deriving DecidableEq, Repr

/-- The body of the record loop of `Decode` up to the map write. -/
def readRecord (stream : Reader) : RecordStep × Reader :=
  match stream.AsUInt16 with
  | (.error _, s1) => (.stop, s1)
  | (.ok code, s1) =>
    let s2 := s1.skip unknown1BytesCount
    match s2.AsByte with
    | (.error err, s3) => (.fail err, s3)
    | (.ok width, s3) =>
      match s3.AsByte with
      | (.error err, s4) => (.fail err, s4)
      | (.ok height, s4) =>
        let s5 := s4.skip unknown2BytesCount
        match s5.AsUInt16 with
        | (.error err, s6) => (.fail err, s6)
        | (.ok frame, s6) =>
          let s7 := s6.skip unknown3BytesCount
          (.glyph code (newGlyph (frame : Int) (width.val : Int) (height.val : Int)), s7)

/-- The record loop of `Decode`, `for i := numHeaderBytes; true; i += bytesPerGlyph`;
the counter `i` is not read by the body. It ends because every pass that goes
round again has consumed bytes. -/
def decodeLoop (stream : Reader) (glyphs : GlyphMap) : Except Error GlyphMap × Reader :=
  match _hpass : readRecord stream with
  | (.stop, s) => (.ok glyphs, s)
  | (.fail err, s) => (.error err, s)
  | (.glyph code g, s) => decodeLoop s (mapSet glyphs (code : Int) g)
termination_by stream.data.length
decreasing_by
  obtain ⟨data⟩ := stream
  rcases data with _ | ⟨c0, _ | ⟨c1, _ | ⟨f1, _ | ⟨w, _ | ⟨h, _ | ⟨a0, _ | ⟨a1, _ | ⟨a2, _ | ⟨r0, _ | ⟨r1, rest⟩⟩⟩⟩⟩⟩⟩⟩⟩⟩
  all_goals cases _hpass
  simp only [Reader.skip, unknown1BytesCount, unknown2BytesCount, unknown3BytesCount,
    List.drop_succ_cons, List.drop_zero, List.length_drop, List.length_cons]
  omega

/-- The outcome of a call of `Decode`: the error returned, the table and the
stream as the call leaves them. -/
structure Decoded where
  err : Option Error
  table : FontTable
  stream : Reader
deriving DecidableEq, Repr

/-- The method `Decode`. -/
def FontTable.Decode (f : FontTable) (stream : Reader) : Decoded :=
  match stream.AsBytes signatureBytesCount with
  | (.error err, s1) => { err := some err, table := f, stream := s1 }
  | (.ok signature, s1) =>
    if signature ≠ knownSignature then
      { err := some .invalidFormat, table := f, stream := s1 }
    else
      let s2 := s1.skip unknownHeaderBytesCount
      match decodeLoop s2 [] with
      | (.error err, s3) => { err := some err, table := f, stream := s3 }
      | (.ok glyphs, s3) => { err := none, table := { Glyphs := glyphs }, stream := s3 }


/-! ## Encode -/

/-- Go's conversion `byte(x)` of an integer: its low 8 bits. -/
def byte (x : Int) : Byte := ⟨(x % 256).toNat, by omega⟩

/-- Modelled from the spec: the writer of package `bitstream`, which is not
among the sources: any sink with a state and the two calls `WriteBytes` and
`WriteByte`, each giving the sink's next state and the error it reports. -/
structure Writer (σ : Type) where
  WriteBytes : σ → List Byte → σ × Option Error
  WriteByte : σ → Byte → σ × Option Error

/-- The body of the loop `for c, i := range f.Glyphs` of `Encode`: seven
writes, of which only the last has its error looked at. -/
def encodeGlyph {σ : Type} (W : Writer σ) (sw : σ) (c : Rune) (i : FontGlyph) :
    σ × Option Error :=
  let sw := (W.WriteByte sw (byte c)).1
  let sw := (W.WriteBytes sw i.Unknown1).1
  let sw := (W.WriteByte sw (byte i.Width)).1
  let sw := (W.WriteByte sw (byte i.Height)).1
  let sw := (W.WriteBytes sw i.Unknown2).1
  let sw := (W.WriteByte sw (byte i.FrameIndex)).1
  W.WriteBytes sw i.Unknown3

/-- The loop `for c, i := range f.Glyphs` of `Encode`, over the entries in the
order `range` visits them. -/
def encodeLoop {σ : Type} (W : Writer σ) : GlyphMap → σ → σ × Option Error
  | [], sw => (sw, none)
  | (c, i) :: rest, sw =>
    match encodeGlyph W sw c i with
    | (sw, some err) => (sw, some err)
    | (sw, none) => encodeLoop W rest sw

/-- The method `Encode`: the sink as the call leaves it, and the error
returned. -/
def FontTable.Encode {σ : Type} (W : Writer σ) (f : FontTable) (sw : σ) : σ × Option Error :=
  match W.WriteBytes sw [87, 111, 111, 33, 1] with
  | (sw, some err) => (sw, some err)
  | (sw, none) =>
    match W.WriteBytes sw [1, 0, 0, 0, 0, 1] with
    | (sw, some err) => (sw, some err)
    | (sw, none) =>
      match W.WriteBytes sw [0, 0] with
      | (sw, some err) => (sw, some err)
      | (sw, none) => encodeLoop W f.Glyphs sw

/-- A sink that accepts every write and keeps the bytes in order. -/
def bufferWriter : Writer (List Byte) where
  WriteBytes := fun buf bs => (buf ++ bs, none)
  WriteByte := fun buf b => (buf ++ [b], none)

/-- A sink that refuses every `WriteByte` with error `sink 1` and accepts every
`WriteBytes`, keeping the bytes. -/
def byteRefusingWriter : Writer (List Byte) where
  WriteBytes := fun buf bs => (buf ++ bs, none)
  WriteByte := fun buf _ => (buf, some (.sink 1))

/-- A sink observed from outside: `W` together with the record of every call
made on it, the bytes handed over and the error reported. -/
def Writer.traced {σ : Type} (W : Writer σ) : Writer (σ × List (List Byte × Option Error)) where
  WriteBytes := fun st bs =>
    ((( W.WriteBytes st.1 bs).1, st.2 ++ [(bs, (W.WriteBytes st.1 bs).2)]),
      (W.WriteBytes st.1 bs).2)
  WriteByte := fun st b =>
    (((W.WriteByte st.1 b).1, st.2 ++ [([b], (W.WriteByte st.1 b).2)]),
      (W.WriteByte st.1 b).2)

/-- The calls `Encode` makes on the sink `W` started in state `sw`, in order,
each with the error it got. -/
def encodeTrace {σ : Type} (W : Writer σ) (f : FontTable) (sw : σ) :
    List (List Byte × Option Error) :=
  (f.Encode W.traced (sw, [])).1.2

/-- The bytes handed to the sink over a sequence of calls. -/
def emitted (tr : List (List Byte × Option Error)) : List Byte :=
  (tr.map (fun call => call.1)).flatten

/-- The record `Encode` writes for one entry of the table, 12 bytes. -/
def encodedRecord (e : Rune × FontGlyph) : List Byte :=
  [byte e.1] ++ e.2.Unknown1 ++ [byte e.2.Width] ++ [byte e.2.Height] ++ e.2.Unknown2
    ++ [byte e.2.FrameIndex] ++ e.2.Unknown3

/-- The positions, in the sequence of writes of `Encode`, of the writes whose
error is looked at: the three writes of the preamble (0, 1, 2) and the seventh
write of every glyph (9, 16, 23, ...). -/
def checkedAt (i : Nat) : Bool := decide (i < 3 ∨ i % 7 = 2)

/-- The error reported by call number `i` of a sequence of calls, if there
were that many. -/
def outcomeAt (tr : List (List Byte × Option Error)) (i : Nat) : Option (Option Error) :=
  (tr[i]?).map (fun call => call.2)

/-- Of the first `k` calls of a sequence, every one whose error `Encode` looks
at was accepted. -/
def CheckedOkBefore (tr : List (List Byte × Option Error)) (k : Nat) : Prop :=
  ∀ i, i < k → checkedAt i = true → outcomeAt tr i = some none

/-! ## The wire format and the text lines, as the specification words them -/

/-- A complete glyph record as it lies in a stream: 14 bytes, in the order
character code (2, little-endian), filler1, width, height, filler2 (3), frame
index (2, little-endian), filler3 (4). -/
structure WireRecord where
  code0 : Byte
  code1 : Byte
  filler1 : Byte
  width : Byte
  height : Byte
  filler2 : Byte × Byte × Byte
  frame0 : Byte
  frame1 : Byte
  filler3 : Byte × Byte × Byte × Byte
deriving DecidableEq, Repr

/-- The 14 bytes of a record. -/
def WireRecord.bytes (r : WireRecord) : List Byte :=
  [r.code0, r.code1, r.filler1, r.width, r.height, r.filler2.1, r.filler2.2.1, r.filler2.2.2,
   r.frame0, r.frame1, r.filler3.1, r.filler3.2.1, r.filler3.2.2.1, r.filler3.2.2.2]

/-- The character code of a record, little-endian. -/
def WireRecord.code (r : WireRecord) : Rune := ((r.code0.val + 256 * r.code1.val : Nat) : Int)

/-- The frame index of a record, little-endian. -/
def WireRecord.frame (r : WireRecord) : Int := ((r.frame0.val + 256 * r.frame1.val : Nat) : Int)

/-- The glyph a record stands for: its frame index, width and height. -/
def WireRecord.glyph (r : WireRecord) : FontGlyph :=
  newGlyph r.frame (r.width.val : Int) (r.height.val : Int)

/-- The bytes of a sequence of records, one after the other. -/
def wireBytes (recs : List WireRecord) : List Byte :=
  (recs.map WireRecord.bytes).flatten

/-- The last record of a sequence that carries the character code `c`. -/
def lastWithCode (recs : List WireRecord) (c : Rune) : Option WireRecord :=
  recs.reverse.find? (fun r => decide (r.code = c))

/-- The keys of a glyph map. -/
def mapKeys (m : GlyphMap) : List Rune := m.map (fun e => e.1)

/-- The record a run of bytes starts with, read up to its frame index: the
character code and the glyph of frame index, width and height. It takes the
ten bytes up to the frame index; the four filler bytes after it are not looked
at. -/
def recordHead : List Byte → Option (Rune × FontGlyph)
  | c0 :: c1 :: _ :: w :: h :: _ :: _ :: _ :: r0 :: r1 :: _ =>
    some (((c0.val + 256 * c1.val : Nat) : Int),
      newGlyph ((r0.val + 256 * r1.val : Nat) : Int) (w.val : Int) (h.val : Int))
  | _ => none

/-- The record in slot `k` of a stream: the slots are 14 bytes wide and start
at offset 12, behind the signature and the header. -/
def recordAt (data : List Byte) (k : Nat) : Option (Rune × FontGlyph) :=
  recordHead (data.drop (numHeaderBytes + bytesPerGlyph * k))

/-- The lines of a text: the runs of characters between newlines (rune 10). A
text with `n` newlines has `n + 1` lines. -/
def textLines : List Rune → List (List Rune)
  | [] => [[]]
  | c :: cs =>
    if c = 10 then [] :: textLines cs
    else
      match textLines cs with
      | [] => [[c]]
      | l :: ls => (c :: l) :: ls

/-- The glyphs of those characters of a line that are keys of the table, in
the order of the line. -/
def lineGlyphs (f : FontTable) (line : List Rune) : List FontGlyph :=
  line.filterMap (mapGet f.Glyphs)

/-- The largest of a list of numbers, and `0` for the empty list. -/
def largest : List Int → Int
  | [] => 0
  | [x] => x
  | x :: y :: rest => Max.max x (largest (y :: rest))

/-- The sum of the widths of the glyphs of a line. -/
def lineWidthSum (f : FontTable) (line : List Rune) : Int :=
  ((lineGlyphs f line).map FontGlyph.Width).sum

/-- The largest glyph height on a line, `0` for a line without a glyph. -/
def lineTallest (f : FontTable) (line : List Rune) : Int :=
  largest ((lineGlyphs f line).map FontGlyph.Height)

/-! ## Sample data -/

/-- A 7-byte header. -/
def sampleHeader : List Byte := [1, 0, 0, 0, 0, 1, 0]

/-- The record of `'A'` (code 65): width 10, height 12, frame index 3. -/
def recordA : WireRecord :=
  { code0 := 65, code1 := 0, filler1 := 0, width := 10, height := 12, filler2 := (1, 0, 0),
    frame0 := 3, frame1 := 0, filler3 := (1, 0, 0, 0) }

/-- The record of `'B'` (code 66): width 8, height 15, frame index 4. -/
def recordB : WireRecord :=
  { code0 := 66, code1 := 0, filler1 := 0, width := 8, height := 15, filler2 := (1, 0, 0),
    frame0 := 4, frame1 := 0, filler3 := (1, 0, 0, 0) }

/-- A second record of `'A'`: width 11, height 13, frame index 260. -/
def recordA2 : WireRecord :=
  { code0 := 65, code1 := 0, filler1 := 0, width := 11, height := 13, filler2 := (1, 0, 0),
    frame0 := 4, frame1 := 1, filler3 := (1, 0, 0, 0) }

/-- The table with the single glyph `'A'`: frame index 3, width 10, height 12. -/
def tableA : FontTable := { Glyphs := [(65, newGlyph 3 10 12)] }

/-- The table with `'A'` (width 10, height 12) and `'B'` (width 8, height 15). -/
def tableAB : FontTable := { Glyphs := [(65, newGlyph 3 10 12), (66, newGlyph 4 8 15)] }

/-- The record of `'C'` (code 67) with filler bytes unlike the usual ones:
width 9, height 11, frame index 5, fillers 7, then 8, 9, 10, then 11 to 14. -/
def recordC : WireRecord :=
  { code0 := 67, code1 := 0, filler1 := 7, width := 9, height := 11, filler2 := (8, 9, 10),
    frame0 := 5, frame1 := 0, filler3 := (11, 12, 13, 14) }

/-- The table with the single glyph `'A'` of width and height `2^63 - 1`, the
largest `int`. -/
def tableHuge : FontTable :=
  { Glyphs := [(65, newGlyph 0 9223372036854775807 9223372036854775807)] }

/-! ## The record loop, pass by pass -/

/-- A pass over a stream that holds a character code, a filler byte, a
width, a height, three filler bytes and a frame index has a glyph to store; the
cursor then stands four bytes further, or at the end. -/
theorem readRecord_glyph (c0 c1 f1 w h a0 a1 a2 r0 r1 : Byte) (rest : List Byte) :
    readRecord ⟨c0 :: c1 :: f1 :: w :: h :: a0 :: a1 :: a2 :: r0 :: r1 :: rest⟩
      = (.glyph (c0.val + 256 * c1.val)
          (newGlyph ((r0.val + 256 * r1.val : Nat) : Int) (w.val : Int) (h.val : Int)),
         ⟨rest.drop 4⟩) := by
  rfl

/-- A pass over a stream with fewer than two bytes leaves the loop. -/
theorem readRecord_stop (data : List Byte) (hlen : data.length < 2) :
    readRecord ⟨data⟩ = (.stop, ⟨[]⟩) := by
  rcases data with _ | ⟨c0, _ | ⟨c1, rest⟩⟩
  · rfl
  · rfl
  · simp only [List.length_cons] at hlen
    omega

/-- A pass over a stream that holds a character code but ends before the end
of the frame index returns an error. -/
theorem readRecord_fail (data : List Byte) (h2 : 2 ≤ data.length) (h10 : data.length < 10) :
    readRecord ⟨data⟩ = (.fail .shortRead, ⟨[]⟩) := by
  rcases data with _ | ⟨c0, _ | ⟨c1, _ | ⟨f1, _ | ⟨w, _ | ⟨h, _ | ⟨a0, _ | ⟨a1, _ | ⟨a2, _ | ⟨r0, _ | ⟨r1, rest⟩⟩⟩⟩⟩⟩⟩⟩⟩⟩
  all_goals first
    | rfl
    | (simp only [List.length_cons, List.length_nil] at h2 h10; omega)

/-- The loop over a stream with fewer than two bytes ends with the glyphs
stored so far. -/
theorem decodeLoop_stop (data : List Byte) (glyphs : GlyphMap) (hlen : data.length < 2) :
    decodeLoop ⟨data⟩ glyphs = (.ok glyphs, ⟨[]⟩) := by
  rw [decodeLoop]
  split <;> rename_i heq <;> rw [readRecord_stop data hlen] at heq <;> simp_all

/-- The loop over a stream that holds a character code but ends before the end
of the frame index returns an error. -/
theorem decodeLoop_fail (data : List Byte) (glyphs : GlyphMap)
    (h2 : 2 ≤ data.length) (h10 : data.length < 10) :
    decodeLoop ⟨data⟩ glyphs = (.error .shortRead, ⟨[]⟩) := by
  rw [decodeLoop]
  split <;> rename_i heq <;> rw [readRecord_fail data h2 h10] at heq <;> simp_all

/-- The loop over a stream that holds a record up to its frame index stores
the glyph and goes on four bytes further. -/
theorem decodeLoop_glyph (c0 c1 f1 w h a0 a1 a2 r0 r1 : Byte) (rest : List Byte)
    (glyphs : GlyphMap) :
    decodeLoop ⟨c0 :: c1 :: f1 :: w :: h :: a0 :: a1 :: a2 :: r0 :: r1 :: rest⟩ glyphs
      = decodeLoop ⟨rest.drop 4⟩
          (mapSet glyphs ((c0.val + 256 * c1.val : Nat) : Int)
            (newGlyph ((r0.val + 256 * r1.val : Nat) : Int) (w.val : Int) (h.val : Int))) := by
  rw [decodeLoop]
  split <;> rename_i heq <;> rw [readRecord_glyph] at heq <;> simp only [Prod.mk.injEq] at heq
  · simp at heq
  · simp at heq
  · obtain ⟨h1, rfl⟩ := heq
    injection h1 with hc hg
    subst hc hg
    rfl


/-! ## Decode, case by case -/

/-- A stream that does not start with the signature: `Decode` returns an
error, leaves the table alone and the cursor behind the five bytes asked for. -/
theorem Decode_of_bad_signature (f : FontTable) (data : List Byte)
    (h : data.take 5 ≠ knownSignature) :
    f.Decode ⟨data⟩
      = { err := some (if 5 ≤ data.length then Error.invalidFormat else Error.shortRead),
          table := f, stream := ⟨data.drop 5⟩ } := by
  unfold FontTable.Decode
  simp only [Reader.AsBytes, Reader.skip, signatureBytesCount]
  by_cases hlen : 5 ≤ data.length
  · simp [hlen, h]
  · simp [hlen]

/-- A stream that starts with the signature: `Decode` runs the record loop
from offset 12 on an empty map. -/
theorem Decode_of_signature (f : FontTable) (rest : List Byte) :
    f.Decode ⟨knownSignature ++ rest⟩
      = match decodeLoop ⟨rest.drop 7⟩ [] with
        | (.error err, s) => { err := some err, table := f, stream := s }
        | (.ok glyphs, s) => { err := none, table := { Glyphs := glyphs }, stream := s } := by
  unfold FontTable.Decode
  simp [Reader.AsBytes, Reader.skip, signatureBytesCount, unknownHeaderBytesCount,
    knownSignature]

/-- The record loop over whole records followed by `tail` stores the records
one after the other and goes on with `tail`. -/
theorem decodeLoop_records (recs : List WireRecord) (tail : List Byte) (glyphs : GlyphMap) :
    decodeLoop ⟨wireBytes recs ++ tail⟩ glyphs
      = decodeLoop ⟨tail⟩ (recs.foldl (fun m r => mapSet m r.code r.glyph) glyphs) := by
  induction recs generalizing glyphs with
  | nil => rfl
  | cons r rs ih =>
    have hshape : wireBytes (r :: rs) ++ tail
        = r.code0 :: r.code1 :: r.filler1 :: r.width :: r.height :: r.filler2.1
            :: r.filler2.2.1 :: r.filler2.2.2 :: r.frame0 :: r.frame1
            :: (r.filler3.1 :: r.filler3.2.1 :: r.filler3.2.2.1 :: r.filler3.2.2.2
                :: (wireBytes rs ++ tail)) := by
      simp [wireBytes, WireRecord.bytes]
    rw [hshape, decodeLoop_glyph]
    exact ih _

/-! ## The glyph map -/

/-- Reading a key after the entries of another key have been filtered out. -/
theorem mapGet_filter_ne (m : GlyphMap) (k c : Rune) (h : k ≠ c) :
    mapGet (m.filter (fun e => !decide (e.1 = k))) c = mapGet m c := by
  induction m with
  | nil => rfl
  | cons e rest ih =>
    obtain ⟨k', g⟩ := e
    by_cases hk : k' = k
    · subst hk
      simp [List.filter, mapGet, h, ih]
    · rw [List.filter_cons_of_pos (by simpa using hk)]
      simp only [mapGet, ih]

/-- A map read after a map write. -/
theorem mapGet_mapSet (m : GlyphMap) (k c : Rune) (g : FontGlyph) :
    mapGet (mapSet m k g) c = if k = c then some g else mapGet m c := by
  by_cases h : k = c
  · simp [mapSet, mapGet, h]
  · simp [mapSet, mapGet, h, mapGet_filter_ne m k c h]

/-- A key reads as absent exactly when it is not among the keys. -/
theorem mapGet_eq_none_iff (m : GlyphMap) (c : Rune) :
    mapGet m c = none ↔ c ∉ mapKeys m := by
  induction m with
  | nil => simp [mapGet, mapKeys]
  | cons e rest ih =>
    obtain ⟨k, g⟩ := e
    by_cases hk : k = c
    · simp [mapGet, mapKeys, hk]
    · have hck : ¬ c = k := fun h => hk h.symm
      simpa [mapGet, mapKeys, hk, hck] using ih

/-- The keys after a map write. -/
theorem mapKeys_mapSet (m : GlyphMap) (k : Rune) (g : FontGlyph) :
    mapKeys (mapSet m k g) = k :: (mapKeys m).filter (fun c => !decide (c = k)) := by
  simp only [mapSet, mapKeys, List.map_cons, List.cons.injEq, true_and]
  induction m with
  | nil => rfl
  | cons e rest ih =>
    by_cases he : e.1 = k
    · simp [List.filter, he, ih]
    · simp [List.filter, he, ih]

/-- A map write keeps the keys distinct. -/
theorem mapKeys_mapSet_nodup (m : GlyphMap) (k : Rune) (g : FontGlyph)
    (h : (mapKeys m).Nodup) : (mapKeys (mapSet m k g)).Nodup := by
  rw [mapKeys_mapSet]
  refine List.nodup_cons.mpr ⟨?_, h.filter _⟩
  simp [List.mem_filter]

/-- The keys stay distinct over any sequence of map writes. -/
theorem mapKeys_foldl_nodup (recs : List WireRecord) (m : GlyphMap) (h : (mapKeys m).Nodup) :
    (mapKeys (recs.foldl (fun m r => mapSet m r.code r.glyph) m)).Nodup := by
  induction recs generalizing m with
  | nil => exact h
  | cons r rs ih => exact ih _ (mapKeys_mapSet_nodup m _ _ h)

/-- Reading a key after a sequence of records has been stored: the glyph of
the last record with that code, or what the map held before. -/
theorem mapGet_foldl_records (recs : List WireRecord) (m : GlyphMap) (c : Rune) :
    mapGet (recs.foldl (fun m r => mapSet m r.code r.glyph) m) c
      = match lastWithCode recs c with
        | some r => some r.glyph
        | none => mapGet m c := by
  induction recs generalizing m with
  | nil => simp [lastWithCode]
  | cons r rs ih =>
    rw [List.foldl_cons, ih]
    simp only [lastWithCode, List.reverse_cons, List.find?_append]
    cases hrs : List.find? (fun r => decide (r.code = c)) rs.reverse with
    | some r' => simp
    | none =>
      by_cases hc : r.code = c
      · simp [mapGet_mapSet, hc]
      · simp [mapGet_mapSet, hc]

/-- Some record carries the code `c` exactly when there is a last one. -/
theorem lastWithCode_isSome_iff (recs : List WireRecord) (c : Rune) :
    (lastWithCode recs c).isSome ↔ ∃ r ∈ recs, r.code = c := by
  simp [lastWithCode, List.find?_isSome]

/-- An entry of a map after a write is the entry written or was there before. -/
theorem mem_mapSet (m : GlyphMap) (k : Rune) (g : FontGlyph) (e : Rune × FontGlyph)
    (h : e ∈ mapSet m k g) : e = (k, g) ∨ e ∈ m := by
  simp only [mapSet, List.mem_cons, List.mem_filter] at h
  rcases h with h | h
  · exact Or.inl h
  · exact Or.inr h.1

/-- Every entry the record loop leaves in the map was there before or is the
record of one of the 14-byte slots of the bytes the loop ran over. -/
theorem decodeLoop_entries (n : Nat) :
    ∀ (data : List Byte) (glyphs result : GlyphMap) (s : Reader), data.length ≤ n →
      decodeLoop ⟨data⟩ glyphs = (.ok result, s) →
      ∀ e ∈ result, e ∈ glyphs ∨ ∃ k, recordHead (data.drop (14 * k)) = some e := by
  induction n with
  | zero =>
    intro data glyphs result s hn hrun e he
    rw [decodeLoop_stop data glyphs (by omega)] at hrun
    simp only [Prod.mk.injEq, Except.ok.injEq] at hrun
    exact Or.inl (hrun.1 ▸ he)
  | succ n ih =>
    intro data glyphs result s hn hrun e he
    by_cases h2 : data.length < 2
    · rw [decodeLoop_stop data glyphs h2] at hrun
      simp only [Prod.mk.injEq, Except.ok.injEq] at hrun
      exact Or.inl (hrun.1 ▸ he)
    by_cases h10 : data.length < 10
    · rw [decodeLoop_fail data glyphs (by omega) h10] at hrun
      simp at hrun
    rcases data with _ | ⟨c0, _ | ⟨c1, _ | ⟨f1, _ | ⟨w, _ | ⟨h, _ | ⟨a0, _ | ⟨a1, _ | ⟨a2, _ | ⟨r0, _ | ⟨r1, rest⟩⟩⟩⟩⟩⟩⟩⟩⟩⟩
    all_goals try (simp only [List.length_cons, List.length_nil] at h10; omega)
    rw [decodeLoop_glyph] at hrun
    have hlen : (rest.drop 4).length ≤ n := by
      simp only [List.length_cons] at hn
      simp only [List.length_drop]
      omega
    rcases ih (rest.drop 4) _ result s hlen hrun e he with hmem | ⟨k, hk⟩
    · rcases mem_mapSet _ _ _ _ hmem with hnew | hold
      · exact Or.inr ⟨0, by rw [hnew]; rfl⟩
      · exact Or.inl hold
    · refine Or.inr ⟨k + 1, ?_⟩
      have hshift : 14 * (k + 1) = (14 * k + 4) + 10 := by ring
      have hdrop : List.drop ((14 * k + 4) + 10)
            (c0 :: c1 :: f1 :: w :: h :: a0 :: a1 :: a2 :: r0 :: r1 :: rest)
          = List.drop (14 * k) (List.drop 4 rest) := by
        rw [List.drop_drop, Nat.add_comm 4 (14 * k)]
        rfl
      rw [hshift, hdrop]
      exact hk

/-- A key that reads as present is an entry of the map. -/
theorem mem_of_mapGet (m : GlyphMap) (c : Rune) (g : FontGlyph) (h : mapGet m c = some g) :
    (c, g) ∈ m := by
  induction m with
  | nil => simp [mapGet] at h
  | cons e rest ih =>
    obtain ⟨k, g'⟩ := e
    by_cases hk : k = c
    · simp only [mapGet, hk, if_true, Option.some.injEq] at h
      simp [hk, h]
    · simp only [mapGet, hk, if_false] at h
      exact List.mem_cons_of_mem _ (ih h)

/-- Whole records behind the signature and a 7-byte header, followed by
`tail`: `Decode` stores the records and runs the loop on over `tail`. -/
theorem Decode_of_records (f : FontTable) (hdr : List Byte) (recs : List WireRecord)
    (tail : List Byte) (hhdr : hdr.length = 7) :
    f.Decode ⟨knownSignature ++ hdr ++ wireBytes recs ++ tail⟩
      = match decodeLoop ⟨tail⟩ (recs.foldl (fun m r => mapSet m r.code r.glyph) []) with
        | (.error err, s) => { err := some err, table := f, stream := s }
        | (.ok glyphs, s) => { err := none, table := { Glyphs := glyphs }, stream := s } := by
  have hdrop : (hdr ++ wireBytes recs ++ tail).drop 7 = wireBytes recs ++ tail := by
    rw [List.append_assoc, List.drop_append_of_le_length (by omega), List.drop_of_length_le
      (by omega), List.nil_append]
  rw [List.append_assoc, List.append_assoc, ← List.append_assoc hdr, Decode_of_signature, hdrop,
    decodeLoop_records]

/-- Whole records and nothing behind them: `Decode` succeeds with the map the
records build. -/
theorem Decode_of_whole_records (f : FontTable) (hdr : List Byte) (recs : List WireRecord)
    (hhdr : hdr.length = 7) :
    f.Decode ⟨knownSignature ++ hdr ++ wireBytes recs⟩
      = { err := none,
          table := { Glyphs := recs.foldl (fun m r => mapSet m r.code r.glyph) [] },
          stream := ⟨[]⟩ } := by
  have h := Decode_of_records f hdr recs [] hhdr
  rw [List.append_nil, decodeLoop_stop [] _ (by simp)] at h
  exact h

/-- Whole records and then a record cut between its character code and the
end of its frame index: `Decode` returns an error and leaves the table alone. -/
theorem Decode_of_cut_record (f : FontTable) (hdr : List Byte) (recs : List WireRecord)
    (cut : List Byte) (hhdr : hdr.length = 7) (h2 : 2 ≤ cut.length) (h10 : cut.length < 10) :
    f.Decode ⟨knownSignature ++ hdr ++ wireBytes recs ++ cut⟩
      = { err := some .shortRead, table := f, stream := ⟨[]⟩ } := by
  rw [Decode_of_records f hdr recs cut hhdr, decodeLoop_fail cut _ h2 h10]

/-- A successful `Decode` has met the signature, and its table is what the
record loop made of the bytes from offset 12 on. -/
theorem Decode_ok_loop (f : FontTable) (data : List Byte) (h : (f.Decode ⟨data⟩).err = none) :
    ∃ s, decodeLoop ⟨data.drop 12⟩ [] = (.ok (f.Decode ⟨data⟩).table.Glyphs, s) := by
  by_cases hsig : data.take 5 = knownSignature
  · have hdata : data = knownSignature ++ data.drop 5 := by
      rw [← hsig, List.take_append_drop]
    have hdrop : (data.drop 5).drop 7 = data.drop 12 := by
      rw [List.drop_drop]
    rw [hdata, Decode_of_signature, hdrop] at h
    rw [hdata, Decode_of_signature, hdrop, ← hdata]
    rcases hloop : decodeLoop ⟨data.drop 12⟩ [] with ⟨res, s⟩
    rw [hloop] at h
    cases res with
    | error e => simp at h
    | ok glyphs => exact ⟨s, rfl⟩
  · rw [Decode_of_bad_signature f data hsig] at h
    simp at h

/-! ## GetTextMetrics against the lines of the text -/

/-- The function `max` of `font.go` is the maximum. -/
theorem max_eq (a b : Int) : max a b = Max.max a b := by
  unfold max
  split <;> omega

/-- A text has at least one line. -/
theorem textLines_ne_nil (text : List Rune) : textLines text ≠ [] := by
  cases text with
  | nil => simp [textLines]
  | cons c cs =>
    unfold textLines
    split
    · simp
    · split <;> simp

/-- The largest of a list of numbers that are not negative is not negative. -/
theorem largest_nonneg (l : List Int) (h : ∀ x ∈ l, 0 ≤ x) : 0 ≤ largest l := by
  induction l with
  | nil => simp [largest]
  | cons x rest ih =>
    cases rest with
    | nil => simpa [largest] using h x (by simp)
    | cons y rest =>
      have := ih (fun z hz => h z (List.mem_cons_of_mem _ hz))
      simp only [largest]
      omega

/-- The largest of a list with a further number in front, none negative. -/
theorem largest_cons (x : Int) (l : List Int) (hx : 0 ≤ x) (h : ∀ y ∈ l, 0 ≤ y) :
    largest (x :: l) = Max.max x (largest l) := by
  cases l with
  | nil =>
    simp only [largest]
    omega
  | cons y rest => rfl

/-- No number of a list is above the largest. -/
theorem le_largest (l : List Int) (x : Int) (hx : x ∈ l) : x ≤ largest l := by
  induction l with
  | nil => simp at hx
  | cons y rest ih =>
    cases rest with
    | nil =>
      simp only [List.mem_singleton] at hx
      simp [largest, hx]
    | cons z rest =>
      simp only [largest]
      rcases List.mem_cons.mp hx with rfl | hmem
      · exact le_max_left _ _
      · exact le_trans (ih hmem) (le_max_right _ _)

/-- The largest of a list that is not empty is one of its numbers. -/
theorem largest_mem (l : List Int) (h : l ≠ []) : largest l ∈ l := by
  induction l with
  | nil => exact absurd rfl h
  | cons y rest ih =>
    cases rest with
    | nil => simp [largest]
    | cons z rest =>
      simp only [largest]
      rcases max_choice y (largest (z :: rest)) with hmax | hmax
      · rw [hmax]
        exact List.mem_cons_self _ _
      · rw [hmax]
        exact List.mem_cons_of_mem _ (ih (by simp))

/-- The line sums of widths are not negative when the widths are not. -/
theorem lineWidthSum_nonneg (f : FontTable)
    (hnn : ∀ c g, mapGet f.Glyphs c = some g → 0 ≤ g.Width ∧ 0 ≤ g.Height) (line : List Rune) :
    0 ≤ lineWidthSum f line := by
  induction line with
  | nil => simp [lineWidthSum, lineGlyphs]
  | cons c cs ih =>
    unfold lineWidthSum lineGlyphs at ih ⊢
    cases hg : mapGet f.Glyphs c with
    | none => simpa [List.filterMap_cons, hg] using ih
    | some g =>
      have := (hnn c g hg).1
      simp only [List.filterMap_cons, hg, List.map_cons, List.sum_cons]
      omega

/-- The heights of the glyphs of a line are not negative when the heights of
the table are not. -/
theorem lineGlyphs_height_nonneg (f : FontTable)
    (hnn : ∀ c g, mapGet f.Glyphs c = some g → 0 ≤ g.Width ∧ 0 ≤ g.Height) (line : List Rune) :
    ∀ y ∈ (lineGlyphs f line).map FontGlyph.Height, 0 ≤ y := by
  intro y hy
  simp only [lineGlyphs, List.mem_map, List.mem_filterMap] at hy
  obtain ⟨g, ⟨c, -, hg⟩, rfl⟩ := hy
  exact (hnn c g hg).2

/-- The tallest glyph of a line is not negative when the heights are not. -/
theorem lineTallest_nonneg (f : FontTable)
    (hnn : ∀ c g, mapGet f.Glyphs c = some g → 0 ≤ g.Width ∧ 0 ≤ g.Height) (line : List Rune) :
    0 ≤ lineTallest f line :=
  largest_nonneg _ (lineGlyphs_height_nonneg f hnn line)

/-- A number of the range of `int` is its own value as an `int`. -/
theorem wrapInt_of_range (x : Int) (h1 : -9223372036854775808 ≤ x)
    (h2 : x < 9223372036854775808) : wrapInt x = x := by
  unfold wrapInt
  omega

/-- The value of an `int` lies in the range of `int`. -/
theorem wrapInt_range (x : Int) :
    -9223372036854775808 ≤ wrapInt x ∧ wrapInt x < 9223372036854775808 := by
  unfold wrapInt
  omega

/-- Wrapping the left summand first does not change a wrapped sum. -/
theorem wrapInt_add_left (a b : Int) : wrapInt (wrapInt a + b) = wrapInt (a + b) := by
  unfold wrapInt
  omega

/-- Wrapping the right summand first does not change a wrapped sum. -/
theorem wrapInt_add_right (a b : Int) : wrapInt (a + wrapInt b) = wrapInt (a + b) := by
  unfold wrapInt
  omega

/-- The addition of Go is the addition of numbers as long as the sum of two
numbers that are not negative stays below `2^63`. -/
theorem addInt_of_small (a b : Int) (ha : 0 ≤ a) (hb : 0 ≤ b)
    (h : a + b < 9223372036854775808) : addInt a b = a + b :=
  wrapInt_of_range _ (by omega) h

/-- The sum of the tallest glyphs of some lines is not negative when the
heights are not. -/
theorem lineTallest_sum_nonneg (f : FontTable)
    (hnn : ∀ c g, mapGet f.Glyphs c = some g → 0 ≤ g.Width ∧ 0 ≤ g.Height)
    (ls : List (List Rune)) : 0 ≤ (ls.map (lineTallest f)).sum := by
  apply List.sum_nonneg
  intro x hx
  obtain ⟨l, -, rfl⟩ := List.mem_map.mp hx
  exact lineTallest_nonneg f hnn l

/-- The loop of `GetTextMetrics` started in any state with line variables and
a height that are not negative, followed by the final fold, as long as no sum
reaches `2^63`: the first line of the text adds to the line the state is in,
the other lines count for themselves. -/
theorem metrics_loop (f : FontTable)
    (hnn : ∀ c g, mapGet f.Glyphs c = some g → 0 ≤ g.Width ∧ 0 ≤ g.Height) (text : List Rune) :
    ∀ st : MetricsState, 0 ≤ st.lineWidth → 0 ≤ st.lineHeight → 0 ≤ st.height →
      st.lineWidth + lineWidthSum f ((textLines text).headD []) < 9223372036854775808 →
      (∀ l ∈ (textLines text).tail, lineWidthSum f l < 9223372036854775808) →
      st.height + Max.max st.lineHeight (lineTallest f ((textLines text).headD []))
          + ((textLines text).tail.map (lineTallest f)).sum < 9223372036854775808 →
      (max (text.foldl (metricsStep f) st).width (text.foldl (metricsStep f) st).lineWidth,
        addInt (text.foldl (metricsStep f) st).height
          (text.foldl (metricsStep f) st).lineHeight)
      = (Max.max st.width (largest ((st.lineWidth + lineWidthSum f ((textLines text).headD []))
            :: (textLines text).tail.map (lineWidthSum f))),
         st.height + Max.max st.lineHeight (lineTallest f ((textLines text).headD []))
            + ((textLines text).tail.map (lineTallest f)).sum) := by
  induction text with
  | nil =>
    intro st hlw hlh hh hbw hbt hbh
    simp only [textLines, List.headD_cons, List.tail_cons, List.map_nil, List.sum_nil,
      lineTallest, lineGlyphs, List.filterMap_nil, largest] at hbh
    rw [List.foldl_nil, addInt_of_small _ _ hh hlh (by omega)]
    simp only [textLines, List.headD_cons, List.tail_cons, List.map_nil,
      List.sum_nil, largest, lineWidthSum, lineTallest, lineGlyphs, List.filterMap_nil, max_eq]
    rw [Prod.mk.injEq]
    constructor <;> omega
  | cons c cs ih =>
    intro st hlw hlh hh hbw hbt hbh
    obtain ⟨l0, ls, hls⟩ : ∃ l0 ls, textLines cs = l0 :: ls := by
      cases h : textLines cs with
      | nil => exact absurd h (textLines_ne_nil cs)
      | cons l0 ls => exact ⟨l0, ls, rfl⟩
    have hT0 := lineTallest_nonneg f hnn l0
    have hW0 := lineWidthSum_nonneg f hnn l0
    have hSum := lineTallest_sum_nonneg f hnn ls
    by_cases hc : c = 10
    · have hlines : textLines (c :: cs) = [] :: l0 :: ls := by
        simp [textLines, hc, hls]
      rw [hlines] at hbw hbt hbh
      simp only [List.headD_cons, List.tail_cons, List.map_cons, List.sum_cons,
        lineTallest, lineGlyphs, List.filterMap_nil, List.map_nil, largest] at hbh
      have hT0' : 0 ≤ largest ((List.filterMap (mapGet f.Glyphs) l0).map FontGlyph.Height) := hT0
      have hSum' : 0 ≤ (ls.map fun line =>
          largest ((List.filterMap (mapGet f.Glyphs) line).map FontGlyph.Height)).sum := hSum
      have hadd : addInt st.height st.lineHeight = st.height + st.lineHeight :=
        addInt_of_small _ _ hh hlh (by omega)
      have hstep : metricsStep f st c
          = { width := max st.width st.lineWidth, height := st.height + st.lineHeight,
              lineWidth := 0, lineHeight := 0 } := by
        simp [metricsStep, hc, hadd]
      rw [List.foldl_cons, hstep, ih _ (le_refl _) (le_refl _) (by simp only []; omega)
        (by
          rw [hls]
          simp only [List.headD_cons, zero_add]
          exact hbt l0 (by simp))
        (by
          rw [hls]
          intro l hl
          exact hbt l (by simp only [List.tail_cons] at hl ⊢; exact List.mem_cons_of_mem _ hl))
        (by
          rw [hls]
          simp only [List.headD_cons, List.tail_cons, lineTallest, lineGlyphs]
          omega), hlines, hls]
      simp only [List.headD_cons, List.tail_cons, List.map_cons, List.sum_cons, largest,
        lineWidthSum, lineTallest, lineGlyphs, List.filterMap_nil, List.map_nil, List.sum_nil,
        max_eq]
      rw [Prod.mk.injEq]
      constructor
      · cases ls with
        | nil => simp only [List.map_nil, largest]; omega
        | cons l1 ls => simp only [List.map_cons, largest]; omega
      · omega
    · have hlines : textLines (c :: cs) = (c :: l0) :: ls := by
        simp [textLines, hc, hls]
      rw [hlines] at hbw hbt hbh
      simp only [List.headD_cons, List.tail_cons] at hbw hbt hbh
      cases hg : mapGet f.Glyphs c with
      | none =>
        have hstep : metricsStep f st c = st := by
          simp [metricsStep, hc, hg]
        have hsame : lineWidthSum f (c :: l0) = lineWidthSum f l0
            ∧ lineTallest f (c :: l0) = lineTallest f l0 := by
          simp [lineWidthSum, lineTallest, lineGlyphs, List.filterMap_cons, hg]
        rw [hsame.1] at hbw
        rw [hsame.2] at hbh
        rw [List.foldl_cons, hstep, ih st hlw hlh hh (by rw [hls]; exact hbw)
          (by rw [hls]; exact hbt) (by rw [hls]; exact hbh), hlines, hls]
        simp only [List.headD_cons, List.tail_cons, hsame.1, hsame.2]
      | some g =>
        have hgw := (hnn c g hg).1
        have hgh := (hnn c g hg).2
        have htall : lineTallest f (c :: l0) = Max.max g.Height (lineTallest f l0) := by
          unfold lineTallest lineGlyphs
          rw [List.filterMap_cons, hg]
          exact largest_cons _ _ hgh (lineGlyphs_height_nonneg f hnn l0)
        have hsum : lineWidthSum f (c :: l0) = g.Width + lineWidthSum f l0 := by
          simp [lineWidthSum, lineGlyphs, List.filterMap_cons, hg]
        rw [hsum] at hbw
        rw [htall] at hbh
        have hadd : addInt st.lineWidth g.Width = st.lineWidth + g.Width :=
          addInt_of_small _ _ hlw hgw (by omega)
        have hstep : metricsStep f st c
            = { st with lineWidth := st.lineWidth + g.Width,
                        lineHeight := max st.lineHeight g.Height } := by
          simp [metricsStep, hc, hg, hadd]
        rw [List.foldl_cons, hstep,
          ih { st with lineWidth := st.lineWidth + g.Width,
                       lineHeight := max st.lineHeight g.Height }
          (by simpa using add_nonneg hlw hgw)
          (by simp only [max_eq]; omega) hh
          (by rw [hls]; simp only [List.headD_cons]; omega)
          (by rw [hls]; exact hbt)
          (by rw [hls]; simp only [List.headD_cons, List.tail_cons, max_eq]; omega),
          hlines, hls]
        simp only [List.headD_cons, List.tail_cons, htall, hsum, max_eq]
        rw [Prod.mk.injEq]
        constructor
        · rw [add_assoc]
        · omega

/-! ## Encode: the calls it makes -/

/-- One glyph on an observed sink: seven calls are recorded, the value is the
error of the seventh, and the sink itself goes through what it goes through
unobserved. -/
theorem encodeGlyph_traced {σ : Type} (W : Writer σ) (sw : σ)
    (tr : List (List Byte × Option Error)) (c : Rune) (i : FontGlyph) :
    ∃ o1 o2 o3 o4 o5 o6 : Option Error,
      encodeGlyph W.traced (sw, tr) c i
        = (((encodeGlyph W sw c i).1,
            tr ++ [([byte c], o1), (i.Unknown1, o2), ([byte i.Width], o3),
              ([byte i.Height], o4), (i.Unknown2, o5), ([byte i.FrameIndex], o6),
              (i.Unknown3, (encodeGlyph W sw c i).2)]),
           (encodeGlyph W sw c i).2) :=
  ⟨_, _, _, _, _, _, by
    simp only [encodeGlyph, Writer.traced, List.append_assoc, List.singleton_append,
      List.cons_append, List.nil_append]
    rfl⟩

/-- The loop on an observed sink returns what it returns unobserved. -/
theorem encodeLoop_traced_err {σ : Type} (W : Writer σ) (glyphs : GlyphMap) :
    ∀ (sw : σ) (tr : List (List Byte × Option Error)),
      (encodeLoop W.traced glyphs (sw, tr)).2 = (encodeLoop W glyphs sw).2 := by
  induction glyphs with
  | nil => intro sw tr; rfl
  | cons e rest ih =>
    intro sw tr
    obtain ⟨c, i⟩ := e
    obtain ⟨o1, o2, o3, o4, o5, o6, hg⟩ := encodeGlyph_traced W sw tr c i
    simp only [encodeLoop, hg]
    rcases hplain : encodeGlyph W sw c i with ⟨sw', _ | err⟩
    · simp only [hplain]
      exact ih _ _
    · simp only [hplain]

/-- The method `Encode` on an observed sink returns what it returns unobserved. -/
theorem Encode_traced_err {σ : Type} (W : Writer σ) (f : FontTable) (sw : σ)
    (tr : List (List Byte × Option Error)) :
    (f.Encode W.traced (sw, tr)).2 = (f.Encode W sw).2 := by
  unfold FontTable.Encode
  simp only [Writer.traced]
  rcases h1 : W.WriteBytes sw [87, 111, 111, 33, 1] with ⟨s1, _ | e1⟩
  · simp only []
    rcases h2 : W.WriteBytes s1 [1, 0, 0, 0, 0, 1] with ⟨s2, _ | e2⟩
    · simp only []
      rcases h3 : W.WriteBytes s2 [0, 0] with ⟨s3, _ | e3⟩
      · simp only []
        exact encodeLoop_traced_err W f.Glyphs _ _
      · simp only []
    · simp only []
  · simp only []

/-- The bytes handed over in two runs of calls, one after the other. -/
theorem emitted_append (a b : List (List Byte × Option Error)) :
    emitted (a ++ b) = emitted a ++ emitted b := by
  simp [emitted]

/-- The loop on a sink that accepts every `WriteBytes`: it returns no error
and hands over the record of every entry, in the order of the entries. -/
theorem encodeLoop_emitted {σ : Type} (W : Writer σ)
    (hacc : ∀ s bs, (W.WriteBytes s bs).2 = none) (glyphs : GlyphMap) :
    ∀ (sw : σ) (tr : List (List Byte × Option Error)),
      (encodeLoop W.traced glyphs (sw, tr)).2 = none
        ∧ emitted (encodeLoop W.traced glyphs (sw, tr)).1.2
            = emitted tr ++ (glyphs.map encodedRecord).flatten := by
  induction glyphs with
  | nil => intro sw tr; simp [encodeLoop]
  | cons e rest ih =>
    intro sw tr
    obtain ⟨c, i⟩ := e
    obtain ⟨o1, o2, o3, o4, o5, o6, hg⟩ := encodeGlyph_traced W sw tr c i
    have hnone : (encodeGlyph W sw c i).2 = none := hacc _ _
    rw [hnone] at hg
    simp only [encodeLoop, hg]
    refine ⟨(ih _ _).1, ?_⟩
    rw [(ih _ _).2, emitted_append]
    simp [emitted, encodedRecord]

/-- A `WriteBytes` on an observed sink. -/
theorem traced_WriteBytes {σ : Type} (W : Writer σ) (st : σ × List (List Byte × Option Error))
    (bs : List Byte) :
    W.traced.WriteBytes st bs
      = (((W.WriteBytes st.1 bs).1, st.2 ++ [(bs, (W.WriteBytes st.1 bs).2)]),
          (W.WriteBytes st.1 bs).2) :=
  rfl

/-- The method `Encode` on an observed sink, by the outcome of the three
writes of the preamble. -/
theorem Encode_traced_cases {σ : Type} (W : Writer σ) (f : FontTable) (sw : σ) :
    f.Encode W.traced (sw, [])
      = match (W.WriteBytes sw [87, 111, 111, 33, 1]).2 with
        | some e =>
          (((W.WriteBytes sw [87, 111, 111, 33, 1]).1, [([87, 111, 111, 33, 1], some e)]), some e)
        | none =>
          match (W.WriteBytes (W.WriteBytes sw [87, 111, 111, 33, 1]).1 [1, 0, 0, 0, 0, 1]).2 with
          | some e =>
            (((W.WriteBytes (W.WriteBytes sw [87, 111, 111, 33, 1]).1 [1, 0, 0, 0, 0, 1]).1,
              [([87, 111, 111, 33, 1], none), ([1, 0, 0, 0, 0, 1], some e)]), some e)
          | none =>
            match (W.WriteBytes (W.WriteBytes (W.WriteBytes sw [87, 111, 111, 33, 1]).1
                [1, 0, 0, 0, 0, 1]).1 [0, 0]).2 with
            | some e =>
              (((W.WriteBytes (W.WriteBytes (W.WriteBytes sw [87, 111, 111, 33, 1]).1
                  [1, 0, 0, 0, 0, 1]).1 [0, 0]).1,
                [([87, 111, 111, 33, 1], none), ([1, 0, 0, 0, 0, 1], none), ([0, 0], some e)]),
                some e)
            | none =>
              encodeLoop W.traced f.Glyphs
                ((W.WriteBytes (W.WriteBytes (W.WriteBytes sw [87, 111, 111, 33, 1]).1
                  [1, 0, 0, 0, 0, 1]).1 [0, 0]).1,
                 [([87, 111, 111, 33, 1], none), ([1, 0, 0, 0, 0, 1], none), ([0, 0], none)]) := by
  unfold FontTable.Encode
  simp only [traced_WriteBytes, List.nil_append]
  rcases h1 : (W.WriteBytes sw [87, 111, 111, 33, 1]).2 with _ | e1
  · simp only [List.singleton_append]
    rcases h2 : (W.WriteBytes (W.WriteBytes sw [87, 111, 111, 33, 1]).1 [1, 0, 0, 0, 0, 1]).2
      with _ | e2
    · simp only [List.cons_append, List.nil_append]
      rcases h3 : (W.WriteBytes (W.WriteBytes (W.WriteBytes sw [87, 111, 111, 33, 1]).1
        [1, 0, 0, 0, 0, 1]).1 [0, 0]).2 with _ | e3
      · simp only []
      · simp only []
    · simp only [List.cons_append, List.nil_append]
  · simp only []

/-- The method `Encode` on a sink that accepts every `WriteBytes`: it returns
no error and hands over the signature, the 8 header bytes and the record of
every entry, in the order of the entries. -/
theorem Encode_emitted {σ : Type} (W : Writer σ)
    (hacc : ∀ s bs, (W.WriteBytes s bs).2 = none) (f : FontTable) (sw : σ) :
    (f.Encode W sw).2 = none
      ∧ emitted (encodeTrace W f sw)
          = knownSignature ++ [1, 0, 0, 0, 0, 1, 0, 0] ++ (f.Glyphs.map encodedRecord).flatten := by
  rw [← Encode_traced_err W f sw [], encodeTrace, Encode_traced_cases]
  simp only [hacc]
  refine ⟨(encodeLoop_emitted W hacc f.Glyphs _ _).1, ?_⟩
  rw [(encodeLoop_emitted W hacc f.Glyphs _ _).2]
  simp [emitted, knownSignature]

/-- The length of the records of a list of entries. -/
theorem encodedRecords_length (glyphs : GlyphMap) :
    (glyphs.map encodedRecord).flatten.length = 12 * glyphs.length := by
  induction glyphs with
  | nil => rfl
  | cons e rest ih =>
    simp only [List.map_cons, List.flatten_cons, List.length_append, ih, List.length_cons]
    simp [encodedRecord, FontGlyph.Unknown1, FontGlyph.Unknown2, FontGlyph.Unknown3]
    omega

/-! ## Encode: the writes whose error it looks at -/

/-- The outcome of a call in the front part of a longer sequence. -/
theorem outcomeAt_append_left (tr ext : List (List Byte × Option Error)) (i : Nat)
    (h : i < tr.length) : outcomeAt (tr ++ ext) i = outcomeAt tr i := by
  simp [outcomeAt, List.getElem?_append_left h]

/-- The seven calls of one glyph, appended behind a whole number of glyphs:
the first six are at positions where the error is not looked at, the seventh is
at one where it is. -/
theorem checked_glyph (tr : List (List Byte × Option Error))
    (c1 c2 c3 c4 c5 c6 c7 : List Byte × Option Error) (h3 : tr.length % 7 = 3)
    (hok : CheckedOkBefore tr tr.length) :
    CheckedOkBefore (tr ++ [c1, c2, c3, c4, c5, c6, c7]) (tr.length + 6)
      ∧ outcomeAt (tr ++ [c1, c2, c3, c4, c5, c6, c7]) (tr.length + 6) = some c7.2
      ∧ (c7.2 = none → CheckedOkBefore (tr ++ [c1, c2, c3, c4, c5, c6, c7]) (tr.length + 7)) := by
  have hfront : CheckedOkBefore (tr ++ [c1, c2, c3, c4, c5, c6, c7]) (tr.length + 6) := by
    intro i hi hc
    by_cases hlt : i < tr.length
    · rw [outcomeAt_append_left _ _ _ hlt]
      exact hok i hlt hc
    · exfalso
      simp only [checkedAt, decide_eq_true_eq] at hc
      omega
  have hlast : outcomeAt (tr ++ [c1, c2, c3, c4, c5, c6, c7]) (tr.length + 6) = some c7.2 := by
    unfold outcomeAt
    rw [List.getElem?_append_right (Nat.le_add_right _ _), Nat.add_sub_cancel_left]
    rfl
  refine ⟨hfront, hlast, ?_⟩
  intro hnone i hi hc
  by_cases hlt : i < tr.length + 6
  · exact hfront i hlt hc
  · have hi6 : i = tr.length + 6 := by omega
    rw [hi6, hlast, hnone]

/-- The loop on an observed sink, started behind the preamble and a whole
number of glyphs whose checked writes were all accepted: every checked write
before the last call was accepted; on success all of them were and every glyph
got its seven calls; on an error the last call is the one that reported it. -/
theorem encodeLoop_checked {σ : Type} (W : Writer σ) (glyphs : GlyphMap) :
    ∀ (sw : σ) (tr : List (List Byte × Option Error)), tr.length % 7 = 3 →
      CheckedOkBefore tr tr.length →
      (encodeLoop W.traced glyphs (sw, tr)).1.2.length % 7 = 3
        ∧ CheckedOkBefore (encodeLoop W.traced glyphs (sw, tr)).1.2
            ((encodeLoop W.traced glyphs (sw, tr)).1.2.length - 1)
        ∧ ((encodeLoop W.traced glyphs (sw, tr)).2 = none →
            CheckedOkBefore (encodeLoop W.traced glyphs (sw, tr)).1.2
                (encodeLoop W.traced glyphs (sw, tr)).1.2.length
              ∧ (encodeLoop W.traced glyphs (sw, tr)).1.2.length
                  = tr.length + 7 * glyphs.length)
        ∧ (∀ e, (encodeLoop W.traced glyphs (sw, tr)).2 = some e →
            outcomeAt (encodeLoop W.traced glyphs (sw, tr)).1.2
              ((encodeLoop W.traced glyphs (sw, tr)).1.2.length - 1) = some (some e)) := by
  induction glyphs with
  | nil =>
    intro sw tr h3 hok
    simp only [encodeLoop, List.length_nil, Nat.mul_zero, Nat.add_zero]
    refine ⟨h3, fun i hi hc => hok i (by omega) hc, fun _ => ⟨hok, trivial⟩, ?_⟩
    intro e he
    simp at he
  | cons entry rest ih =>
    intro sw tr h3 hok
    obtain ⟨c, i⟩ := entry
    obtain ⟨o1, o2, o3, o4, o5, o6, hg⟩ := encodeGlyph_traced W sw tr c i
    obtain ⟨hfront, hlast, hall⟩ := checked_glyph tr ([byte c], o1) (i.Unknown1, o2)
      ([byte i.Width], o3) ([byte i.Height], o4) (i.Unknown2, o5) ([byte i.FrameIndex], o6)
      (i.Unknown3, (encodeGlyph W sw c i).2) h3 hok
    rcases hres : (encodeGlyph W sw c i).2 with _ | err
    · rw [hres] at hg hall hlast
      simp only [encodeLoop, hg]
      have hlen : (tr ++ [([byte c], o1), (i.Unknown1, o2), ([byte i.Width], o3),
          ([byte i.Height], o4), (i.Unknown2, o5), ([byte i.FrameIndex], o6),
          (i.Unknown3, (none : Option Error))]).length = tr.length + 7 := by
        simp
      obtain ⟨ih3, ihfront, ihok, iherr⟩ := ih (encodeGlyph W sw c i).1 _
        (by rw [hlen]; omega) (by rw [hlen]; exact hall rfl)
      refine ⟨ih3, ihfront, ?_, iherr⟩
      intro hnone
      refine ⟨(ihok hnone).1, ?_⟩
      rw [(ihok hnone).2, hlen, List.length_cons]
      omega
    · rw [hres] at hg hfront hlast
      simp only [encodeLoop, hg]
      have hlen : (tr ++ [([byte c], o1), (i.Unknown1, o2), ([byte i.Width], o3),
          ([byte i.Height], o4), (i.Unknown2, o5), ([byte i.FrameIndex], o6),
          (i.Unknown3, some err)]).length = tr.length + 7 := by
        simp
      have h76 : tr.length + 7 - 1 = tr.length + 6 := by omega
      rw [hlen, h76]
      refine ⟨by omega, ?_, ?_, ?_⟩
      · exact hfront
      · intro h
        simp at h
      · intro e he
        simp only [Option.some.injEq] at he
        subst he
        exact hlast

/-- What the calls of `Encode` look like when it has returned the error `e`
of a checked last call, all checked calls before it having been accepted. -/
theorem policy_of_error (tr : List (List Byte × Option Error)) (n : Nat) (e : Error)
    (k : Nat) (hlen : tr.length = k + 1) (hc : checkedAt k = true)
    (hfront : CheckedOkBefore tr k) (hlast : outcomeAt tr k = some (some e)) :
    CheckedOkBefore tr (tr.length - 1)
      ∧ ((some e : Option Error) = none ↔ CheckedOkBefore tr tr.length)
      ∧ ((some e : Option Error) = none → tr.length = 3 + 7 * n)
      ∧ (∀ e', (some e : Option Error) = some e' →
          tr ≠ [] ∧ checkedAt (tr.length - 1) = true
            ∧ outcomeAt tr (tr.length - 1) = some (some e')) := by
  have hk : tr.length - 1 = k := by omega
  rw [hk]
  refine ⟨hfront, ⟨fun h => by simp at h, fun hall => ?_⟩, fun h => by simp at h, ?_⟩
  · have := hall k (by omega) hc
    rw [hlast] at this
    simp at this
  · intro e' he'
    simp only [Option.some.injEq] at he'
    subst he'
    refine ⟨?_, hc, hlast⟩
    intro hnil
    rw [hnil] at hlen
    simp at hlen

/-- What the calls of `Encode` look like when it has gone into its loop. -/
theorem policy_of_loop (tr : List (List Byte × Option Error)) (r : Option Error) (n : Nat)
    (hmod : tr.length % 7 = 3) (hfront : CheckedOkBefore tr (tr.length - 1))
    (hok : r = none → CheckedOkBefore tr tr.length ∧ tr.length = 3 + 7 * n)
    (herr : ∀ e, r = some e → outcomeAt tr (tr.length - 1) = some (some e)) :
    CheckedOkBefore tr (tr.length - 1)
      ∧ (r = none ↔ CheckedOkBefore tr tr.length)
      ∧ (r = none → tr.length = 3 + 7 * n)
      ∧ (∀ e, r = some e →
          tr ≠ [] ∧ checkedAt (tr.length - 1) = true
            ∧ outcomeAt tr (tr.length - 1) = some (some e)) := by
  have hchecked : checkedAt (tr.length - 1) = true := by
    simp only [checkedAt, decide_eq_true_eq]
    omega
  refine ⟨hfront, ⟨fun h => (hok h).1, fun hall => ?_⟩, fun h => (hok h).2, fun e he => ?_⟩
  · cases r with
    | none => rfl
    | some e =>
      exfalso
      have hchk := hall (tr.length - 1) (by omega) hchecked
      rw [herr e rfl] at hchk
      simp at hchk
  · refine ⟨?_, hchecked, herr e he⟩
    intro hnil
    rw [hnil] at hmod
    simp at hmod

/-- The sink `bufferWriter` holds, after the loop, what it held before and the
record of every entry. -/
theorem encodeLoop_bufferWriter (glyphs : GlyphMap) :
    ∀ buf : List Byte,
      encodeLoop bufferWriter glyphs buf = (buf ++ (glyphs.map encodedRecord).flatten, none) := by
  induction glyphs with
  | nil => intro buf; simp [encodeLoop]
  | cons entry rest ih =>
    intro buf
    obtain ⟨c, i⟩ := entry
    have hg : encodeGlyph bufferWriter buf c i = (buf ++ encodedRecord (c, i), none) := by
      simp [encodeGlyph, bufferWriter, encodedRecord]
    simp only [encodeLoop, hg, ih, List.map_cons, List.flatten_cons, List.append_assoc]

/-- The sink `bufferWriter` holds, after `Encode`, what it held before and then
the signature, the 8 header bytes and the record of every entry. -/
theorem Encode_bufferWriter (f : FontTable) (buf : List Byte) :
    f.Encode bufferWriter buf
      = (buf ++ knownSignature ++ [1, 0, 0, 0, 0, 1, 0, 0]
          ++ (f.Glyphs.map encodedRecord).flatten, none) := by
  unfold FontTable.Encode
  simp only [bufferWriter]
  have h := encodeLoop_bufferWriter f.Glyphs
    (buf ++ [87, 111, 111, 33, 1] ++ [1, 0, 0, 0, 0, 1] ++ [0, 0])
  simp only [bufferWriter] at h
  rw [h]
  simp [knownSignature]

/-! ## The claims -/

/-- C1 (the round trip fails on the code). For the table with the single glyph
`'A'` (frame index 3, width 10, height 12) `Encode` into an accepting sink
succeeds with 25 bytes, and `Decode` of these 25 bytes succeeds with a table
that has no glyph under `'A'`: its only key is 16640, with frame index 259. The
header `Encode` writes is one byte longer than the one `Decode` skips, and the
character code and frame index are written as one byte and read as two. -/
theorem Encode_Decode_tableA_differs :
    tableA.Encode bufferWriter []
        = ([87, 111, 111, 33, 1, 1, 0, 0, 0, 0, 1, 0, 0, 65, 0, 10, 12, 1, 0, 0, 3, 1, 0, 0, 0],
           none)
      ∧ FontTable.Decode { Glyphs := [] } ⟨(tableA.Encode bufferWriter []).1⟩
        = { err := none, table := { Glyphs := [(16640, newGlyph 259 10 12)] }, stream := ⟨[]⟩ }
      ∧ mapGet tableA.Glyphs 65 = some (newGlyph 3 10 12)
      ∧ mapGet (FontTable.Decode { Glyphs := [] } ⟨(tableA.Encode bufferWriter []).1⟩).table.Glyphs
          65 = none := by
  have henc : tableA.Encode bufferWriter []
      = ([87, 111, 111, 33, 1, 1, 0, 0, 0, 0, 1, 0, 0, 65, 0, 10, 12, 1, 0, 0, 3, 1, 0, 0, 0],
         none) := by decide
  have hdec : FontTable.Decode { Glyphs := [] } ⟨(tableA.Encode bufferWriter []).1⟩
      = { err := none, table := { Glyphs := [(16640, newGlyph 259 10 12)] }, stream := ⟨[]⟩ } := by
    rw [henc]
    show FontTable.Decode { Glyphs := [] } ⟨knownSignature
      ++ [1, 0, 0, 0, 0, 1, 0, 0, 65, 0, 10, 12, 1, 0, 0, 3, 1, 0, 0, 0]⟩ = _
    rw [Decode_of_signature]
    show (match decodeLoop ⟨[0, 65, 0, 10, 12, 1, 0, 0, 3, 1, 0, 0, 0]⟩ [] with
      | (.error err, s) => ({ err := some err, table := { Glyphs := [] }, stream := s } : Decoded)
      | (.ok glyphs, s) => { err := none, table := { Glyphs := glyphs }, stream := s }) = _
    rw [decodeLoop_glyph]
    show (match decodeLoop ⟨[]⟩ [(16640, newGlyph 259 10 12)] with
      | (.error err, s) => ({ err := some err, table := { Glyphs := [] }, stream := s } : Decoded)
      | (.ok glyphs, s) => { err := none, table := { Glyphs := glyphs }, stream := s }) = _
    rw [decodeLoop_stop [] _ (by decide)]
  refine ⟨henc, hdec, by decide, ?_⟩
  rw [hdec]
  decide

/-- C2. A stream whose first 5 bytes are not `"Woo!"` followed by `0x01`, also
one shorter than 5 bytes: `Decode` returns an error (the format error when 5
bytes were there, the cursor's error otherwise), the cursor stands right behind
the 5 bytes asked for, so that nothing further was read, and the table is as
before. -/
theorem Decode_bad_signature (f : FontTable) (data : List Byte)
    (h : data.take 5 ≠ knownSignature) :
    (f.Decode ⟨data⟩).err
        = some (if 5 ≤ data.length then Error.invalidFormat else Error.shortRead)
      ∧ (f.Decode ⟨data⟩).err ≠ none
      ∧ (f.Decode ⟨data⟩).stream = ⟨data.drop 5⟩
      ∧ (f.Decode ⟨data⟩).table = f := by
  rw [Decode_of_bad_signature f data h]
  simp

/-- C2 at the stream `"Woo!"`, `0x00`, a header and the record of `'A'`. -/
theorem Decode_bad_signature_witness :
    ([87, 111, 111, 33, 0] ++ sampleHeader ++ wireBytes [recordA]).take 5 ≠ knownSignature
      ∧ (tableAB.Decode ⟨[87, 111, 111, 33, 0] ++ sampleHeader ++ wireBytes [recordA]⟩).err
          = some Error.invalidFormat
      ∧ (tableAB.Decode ⟨[87, 111, 111, 33, 0] ++ sampleHeader ++ wireBytes [recordA]⟩).stream
          = ⟨sampleHeader ++ wireBytes [recordA]⟩ :=
  have h := Decode_bad_signature tableAB
    ([87, 111, 111, 33, 0] ++ sampleHeader ++ wireBytes [recordA]) (by decide)
  ⟨by decide, h.1, h.2.2.1⟩

/-- C3. A stream made of the signature, any 7 header bytes and any number of
whole 14-byte records, with nothing behind them: `Decode` succeeds and consumes
the stream; the keys of the table are exactly the character codes that occur in
the records, each once; and each key reads as the glyph (frame index, width,
height) of the last record that carries it. -/
theorem Decode_whole_records (f : FontTable) (hdr : List Byte) (recs : List WireRecord)
    (hhdr : hdr.length = 7) :
    ∃ glyphs : GlyphMap,
      f.Decode ⟨knownSignature ++ hdr ++ wireBytes recs⟩
        = { err := none, table := { Glyphs := glyphs }, stream := ⟨[]⟩ }
      ∧ (∀ c, c ∈ mapKeys glyphs ↔ ∃ r ∈ recs, r.code = c)
      ∧ (mapKeys glyphs).Nodup
      ∧ (∀ c, mapGet glyphs c = (lastWithCode recs c).map WireRecord.glyph) := by
  refine ⟨recs.foldl (fun m r => mapSet m r.code r.glyph) [],
    Decode_of_whole_records f hdr recs hhdr, ?_, ?_, ?_⟩
  · intro c
    rw [← lastWithCode_isSome_iff, ← not_iff_not, ← mapGet_eq_none_iff, mapGet_foldl_records]
    cases lastWithCode recs c <;> simp [mapGet]
  · exact mapKeys_foldl_nodup recs [] (by simp [mapKeys])
  · intro c
    rw [mapGet_foldl_records]
    cases lastWithCode recs c <;> simp [mapGet]

/-- C3 at the stream of the records of `'A'`, `'B'` and `'A'` again. -/
theorem Decode_whole_records_witness :
    sampleHeader.length = 7
      ∧ ∃ glyphs : GlyphMap,
          tableA.Decode ⟨knownSignature ++ sampleHeader ++ wireBytes [recordA, recordB, recordA2]⟩
            = { err := none, table := { Glyphs := glyphs }, stream := ⟨[]⟩ }
          ∧ mapGet glyphs 65 = some (newGlyph 260 11 13)
          ∧ mapGet glyphs 66 = some (newGlyph 4 8 15)
          ∧ mapGet glyphs 67 = none :=
  have h := Decode_whole_records tableA sampleHeader [recordA, recordB, recordA2] (by decide)
  ⟨by decide, h.elim fun glyphs hg =>
    ⟨glyphs, hg.1, (hg.2.2.2 65).trans (by decide), (hg.2.2.2 66).trans (by decide),
      (hg.2.2.2 67).trans (by decide)⟩⟩

/-- C4. A stream made of the signature, 7 header bytes, any number of whole
records and then a record cut after its character code and before the end of
its frame index (2 to 9 of its bytes are there): `Decode` returns an error, not
success, and the table is as before, so no glyph of the cut record, nor any
other, is handed out. -/
theorem Decode_cut_record (f : FontTable) (hdr : List Byte) (recs : List WireRecord)
    (cut : List Byte) (hhdr : hdr.length = 7) (h2 : 2 ≤ cut.length) (h10 : cut.length < 10) :
    f.Decode ⟨knownSignature ++ hdr ++ wireBytes recs ++ cut⟩
      = { err := some .shortRead, table := f, stream := ⟨[]⟩ } :=
  Decode_of_cut_record f hdr recs cut hhdr h2 h10

/-- C4 at a stream that ends right behind the character code and filler1 of
its second record. -/
theorem Decode_cut_record_witness :
    sampleHeader.length = 7 ∧ 2 ≤ [(66 : Byte), 0, 0].length ∧ [(66 : Byte), 0, 0].length < 10
      ∧ tableA.Decode ⟨knownSignature ++ sampleHeader ++ wireBytes [recordA] ++ [66, 0, 0]⟩
          = { err := some .shortRead, table := tableA, stream := ⟨[]⟩ } :=
  ⟨by decide, by decide, by decide,
    Decode_cut_record tableA sampleHeader [recordA] [66, 0, 0] (by decide) (by decide)
      (by decide)⟩

/-- C5 (fails as stated). For the table with the single glyph `'A'` of width
and height `2^63 - 1`, neither of them negative, and the text `"AA"`:
`GetTextMetrics` returns `(0, 2^63 - 1)`, the sum of the two widths having
wrapped around to `-2`, whereas the sum of the widths of the one line is
`2^64 - 2`. -/
theorem GetTextMetrics_overflow :
    (∀ e ∈ tableHuge.Glyphs, 0 ≤ e.2.Width ∧ 0 ≤ e.2.Height)
      ∧ tableHuge.GetTextMetrics [65, 65] = (0, 9223372036854775807)
      ∧ largest ((textLines [65, 65]).map (lineWidthSum tableHuge)) = 18446744073709551614
      ∧ ((textLines [65, 65]).map (lineTallest tableHuge)).sum = 9223372036854775807 := by
  decide

/-- C5 as amended. For every table whose glyphs have widths and heights that
are not negative, and every text such that the sum of the widths on each line
and the sum over the lines of the largest heights stay below `2^63`, so that
no addition of `int` wraps around: `GetTextMetrics` returns as width the
largest, over the lines of the text, of the sum of the widths of the line's
characters that are keys of the table, and as height the sum, over the lines,
of the largest glyph height on the line, `0` for a line without a glyph. -/
theorem GetTextMetrics_lines (f : FontTable) (text : List Rune)
    (hnn : ∀ e ∈ f.Glyphs, 0 ≤ e.2.Width ∧ 0 ≤ e.2.Height)
    (hw : ∀ line ∈ textLines text, lineWidthSum f line < 9223372036854775808)
    (hh : ((textLines text).map (lineTallest f)).sum < 9223372036854775808) :
    f.GetTextMetrics text
      = (largest ((textLines text).map (lineWidthSum f)),
         ((textLines text).map (lineTallest f)).sum) := by
  have hnn' : ∀ c g, mapGet f.Glyphs c = some g → 0 ≤ g.Width ∧ 0 ≤ g.Height :=
    fun c g hg => hnn (c, g) (mem_of_mapGet _ _ _ hg)
  obtain ⟨l0, ls, hls⟩ : ∃ l0 ls, textLines text = l0 :: ls := by
    cases h : textLines text with
    | nil => exact absurd h (textLines_ne_nil text)
    | cons l0 ls => exact ⟨l0, ls, rfl⟩
  have hT0 := lineTallest_nonneg f hnn' l0
  rw [hls] at hw hh
  simp only [List.map_cons, List.sum_cons] at hh
  have hloop := metrics_loop f hnn' text
    { width := 0, height := 0, lineWidth := 0, lineHeight := 0 } (le_refl _) (le_refl _)
    (le_refl _)
    (by
      rw [hls]
      simp only [List.headD_cons, zero_add]
      exact hw l0 (List.mem_cons_self _ _))
    (by
      rw [hls]
      intro l hl
      exact hw l (List.mem_cons_of_mem _ hl))
    (by
      rw [hls]
      simp only [List.headD_cons, List.tail_cons]
      omega)
  unfold FontTable.GetTextMetrics
  simp only []
  rw [hloop, hls]
  simp only [List.headD_cons, List.tail_cons, List.map_cons, List.sum_cons, zero_add]
  have hW : 0 ≤ largest (lineWidthSum f l0 :: ls.map (lineWidthSum f)) := by
    apply largest_nonneg
    intro x hx
    simp only [List.mem_cons, List.mem_map] at hx
    rcases hx with rfl | ⟨l, -, rfl⟩
    · exact lineWidthSum_nonneg f hnn' l0
    · exact lineWidthSum_nonneg f hnn' l
  rw [Prod.mk.injEq]
  constructor <;> omega

/-- C5 as amended, at the table of `'A'` and `'B'` and the text `"A\nB"`,
which has the size (10, 27). -/
theorem GetTextMetrics_lines_witness :
    (∀ e ∈ tableAB.Glyphs, 0 ≤ e.2.Width ∧ 0 ≤ e.2.Height)
      ∧ (∀ line ∈ textLines [65, 10, 66], lineWidthSum tableAB line < 9223372036854775808)
      ∧ ((textLines [65, 10, 66]).map (lineTallest tableAB)).sum < 9223372036854775808
      ∧ tableAB.GetTextMetrics [65, 10, 66]
          = (largest ((textLines [65, 10, 66]).map (lineWidthSum tableAB)),
             ((textLines [65, 10, 66]).map (lineTallest tableAB)).sum)
      ∧ tableAB.GetTextMetrics [65, 10, 66] = (10, 27) :=
  ⟨by decide, by decide, by decide,
    GetTextMetrics_lines tableAB [65, 10, 66] (by decide) (by decide) (by decide), by decide⟩

/-- C6. For every table, with `N` entries, and every sink that accepts every
write: `Encode` returns no error, the bytes it hands to the sink are
`13 + 12 * N` in number, and the first 13 of them are the signature `"Woo!"`,
`0x01` and the 8 header bytes `1, 0, 0, 0, 0, 1, 0, 0`. -/
theorem Encode_length {σ : Type} (W : Writer σ) (f : FontTable) (sw : σ)
    (hacc : (∀ s bs, (W.WriteBytes s bs).2 = none) ∧ (∀ s b, (W.WriteByte s b).2 = none)) :
    (f.Encode W sw).2 = none
      ∧ (emitted (encodeTrace W f sw)).length = 13 + 12 * f.Glyphs.length
      ∧ (emitted (encodeTrace W f sw)).take 13
          = [87, 111, 111, 33, 1, 1, 0, 0, 0, 0, 1, 0, 0] := by
  obtain ⟨herr, hbytes⟩ := Encode_emitted W hacc.1 f sw
  refine ⟨herr, ?_, ?_⟩
  · rw [hbytes, List.length_append, encodedRecords_length]
    simp [knownSignature]
  · rw [hbytes]
    simp [knownSignature]

/-- C6 at the table of `'A'` and `'B'` and the sink `bufferWriter`, which ends
up holding the 37 bytes handed over. -/
theorem Encode_length_witness :
    ((∀ s bs, (bufferWriter.WriteBytes s bs).2 = none)
        ∧ (∀ s b, (bufferWriter.WriteByte s b).2 = none))
      ∧ (tableAB.Encode bufferWriter []).2 = none
      ∧ (emitted (encodeTrace bufferWriter tableAB [])).length = 13 + 12 * 2
      ∧ (tableAB.Encode bufferWriter []).1 = emitted (encodeTrace bufferWriter tableAB []) :=
  have h := Encode_length bufferWriter tableAB [] ⟨fun _ _ => rfl, fun _ _ => rfl⟩
  ⟨⟨fun _ _ => rfl, fun _ _ => rfl⟩, h.1, h.2.1, by decide⟩

/-- C7. For every table and every sink that accepts every write: behind the
13 bytes of the preamble, the bytes `Encode` hands to the sink are the 12-byte
records of the entries of the table, one record for each entry, in the order
in which the loop visits them; the record of an entry is the low byte of the
key, filler1, the low byte of the width, the low byte of the height, the three
bytes of filler2, the low byte of the frame index and the four bytes of
filler3. -/
theorem Encode_records {σ : Type} (W : Writer σ) (f : FontTable) (sw : σ)
    (hacc : (∀ s bs, (W.WriteBytes s bs).2 = none) ∧ (∀ s b, (W.WriteByte s b).2 = none)) :
    (emitted (encodeTrace W f sw)).drop 13 = (f.Glyphs.map encodedRecord).flatten
      ∧ (∃ order : GlyphMap, order.Perm f.Glyphs
          ∧ (emitted (encodeTrace W f sw)).drop 13 = (order.map encodedRecord).flatten)
      ∧ (∀ e : Rune × FontGlyph, (encodedRecord e).map Fin.val
          = [(e.1 % 256).toNat, e.2.unknown1.val, (e.2.width % 256).toNat,
             (e.2.height % 256).toNat, e.2.unknown2.1.val, e.2.unknown2.2.1.val,
             e.2.unknown2.2.2.val, (e.2.frame % 256).toNat, e.2.unknown3.1.val,
             e.2.unknown3.2.1.val, e.2.unknown3.2.2.1.val, e.2.unknown3.2.2.2.val]) := by
  have hdrop : (emitted (encodeTrace W f sw)).drop 13
      = (f.Glyphs.map encodedRecord).flatten := by
    rw [(Encode_emitted W hacc.1 f sw).2]
    simp [knownSignature]
  refine ⟨hdrop, ⟨f.Glyphs, List.Perm.refl _, hdrop⟩, ?_⟩
  intro e
  rfl

/-- C7 at a table whose glyph has a key, a width, a height and a frame index
above 255: key 321 is written as 65, width 266 as 10, height 268 as 12 and
frame index 259 as 3. -/
theorem Encode_records_witness :
    ((∀ s bs, (bufferWriter.WriteBytes s bs).2 = none)
        ∧ (∀ s b, (bufferWriter.WriteByte s b).2 = none))
      ∧ (emitted (encodeTrace bufferWriter { Glyphs := [(321, newGlyph 259 266 268)] } [])).drop 13
          = [65, 0, 10, 12, 1, 0, 0, 3, 1, 0, 0, 0] :=
  have h := Encode_records bufferWriter { Glyphs := [(321, newGlyph 259 266 268)] } []
    ⟨fun _ _ => rfl, fun _ _ => rfl⟩
  ⟨⟨fun _ _ => rfl, fun _ _ => rfl⟩, h.1.trans (by decide)⟩

/-- C8 (fails as stated). On the sink that refuses every `WriteByte`, `Encode`
of the table with the single glyph `'A'` returns no error although four of its
ten writes failed, and it went on writing after the first of them. -/
theorem Encode_ignores_failed_write :
    (tableA.Encode byteRefusingWriter []).2 = none
      ∧ (encodeTrace byteRefusingWriter tableA []).map (fun call => call.2)
          = [none, none, none, some (.sink 1), none, some (.sink 1), some (.sink 1), none,
             some (.sink 1), none] := by
  decide

/-- C8 as amended. `Encode` looks at the error of the three writes of the
preamble and, of the seven writes of a glyph, of the last one only. For every
table and every sink: every checked write before the last write made was
accepted; `Encode` returns no error exactly when every checked write it made
was accepted, and it has then made all its `3 + 7 * N` writes; and when it
returns an error, that is the error of the last write it made, which is a
checked one, so that it stopped at the first checked write that failed. -/
theorem Encode_checked_writes {σ : Type} (W : Writer σ) (f : FontTable) (sw : σ) :
    CheckedOkBefore (encodeTrace W f sw) ((encodeTrace W f sw).length - 1)
      ∧ ((f.Encode W sw).2 = none
          ↔ CheckedOkBefore (encodeTrace W f sw) (encodeTrace W f sw).length)
      ∧ ((f.Encode W sw).2 = none → (encodeTrace W f sw).length = 3 + 7 * f.Glyphs.length)
      ∧ (∀ e, (f.Encode W sw).2 = some e →
          encodeTrace W f sw ≠ [] ∧ checkedAt ((encodeTrace W f sw).length - 1) = true
            ∧ outcomeAt (encodeTrace W f sw) ((encodeTrace W f sw).length - 1)
                = some (some e)) := by
  rw [← Encode_traced_err W f sw [], encodeTrace, Encode_traced_cases]
  rcases h1 : (W.WriteBytes sw [87, 111, 111, 33, 1]).2 with _ | e1
  · rcases h2 : (W.WriteBytes (W.WriteBytes sw [87, 111, 111, 33, 1]).1 [1, 0, 0, 0, 0, 1]).2
      with _ | e2
    · rcases h3 : (W.WriteBytes (W.WriteBytes (W.WriteBytes sw [87, 111, 111, 33, 1]).1
        [1, 0, 0, 0, 0, 1]).1 [0, 0]).2 with _ | e3
      · simp only []
        have hok3 : CheckedOkBefore
            [(([87, 111, 111, 33, 1] : List Byte), (none : Option Error)),
              ([1, 0, 0, 0, 0, 1], none), ([0, 0], none)] 3 := by
          intro i hi _
          rcases i with _ | _ | _ | i
          · rfl
          · rfl
          · rfl
          · omega
        obtain ⟨hmod, hfront, hok, herr⟩ := encodeLoop_checked W f.Glyphs
          (W.WriteBytes (W.WriteBytes (W.WriteBytes sw [87, 111, 111, 33, 1]).1
            [1, 0, 0, 0, 0, 1]).1 [0, 0]).1 _ (by rfl) hok3
        exact policy_of_loop _ _ f.Glyphs.length hmod hfront
          (fun h => ⟨(hok h).1, by rw [(hok h).2]; rfl⟩) herr
      · simp only []
        refine policy_of_error _ f.Glyphs.length e3 2 rfl rfl ?_ rfl
        intro i hi _
        rcases i with _ | _ | i
        · rfl
        · rfl
        · omega
    · simp only []
      refine policy_of_error _ f.Glyphs.length e2 1 rfl rfl ?_ rfl
      intro i hi _
      rcases i with _ | i
      · rfl
      · omega
  · simp only []
    exact policy_of_error _ f.Glyphs.length e1 0 rfl rfl (fun i hi _ => by omega) rfl

/-- C9. For every table and every stream on which `Decode` returns an error,
the table after the call is the table before the call. -/
theorem Decode_error_keeps_table (f : FontTable) (stream : Reader)
    (h : (f.Decode stream).err ≠ none) : (f.Decode stream).table = f := by
  obtain ⟨data⟩ := stream
  by_cases hsig : data.take 5 = knownSignature
  · have hdata : data = knownSignature ++ data.drop 5 := by
      rw [← hsig, List.take_append_drop]
    rw [hdata, Decode_of_signature] at h ⊢
    rcases hloop : decodeLoop ⟨(data.drop 5).drop 7⟩ [] with ⟨res, s⟩
    rw [hloop] at h
    cases res with
    | error e => rfl
    | ok glyphs => simp at h
  · rw [Decode_of_bad_signature f data hsig]

/-- C9 at the table of `'A'` and `'B'` and a stream whose second record is
cut: the call fails and the table still holds `'A'` and `'B'`. -/
theorem Decode_error_keeps_table_witness :
    (tableAB.Decode ⟨knownSignature ++ sampleHeader ++ wireBytes [recordA2] ++ [66, 0, 0]⟩).err
        ≠ none
      ∧ (tableAB.Decode ⟨knownSignature ++ sampleHeader ++ wireBytes [recordA2]
          ++ [66, 0, 0]⟩).table = tableAB :=
  have herr : (tableAB.Decode
      ⟨knownSignature ++ sampleHeader ++ wireBytes [recordA2] ++ [66, 0, 0]⟩).err ≠ none := by
    rw [Decode_of_cut_record tableAB sampleHeader [recordA2] [66, 0, 0] (by decide) (by decide)
      (by decide)]
    decide
  ⟨herr, Decode_error_keeps_table tableAB _ herr⟩

/-- C10. For every stream on which `Decode` succeeds: every entry of the
resulting table, a key with the glyph stored under it, is the record of one of
the 14-byte slots of the stream behind its 12 header bytes, that is, the key is
the little-endian character code of that record and the glyph has the width,
the height and the little-endian frame index of the same record. (Of the last
slot the filler bytes behind the frame index may be missing.) -/
theorem Decode_entries_are_records (f : FontTable) (data : List Byte)
    (h : (f.Decode ⟨data⟩).err = none) :
    (∀ e ∈ (f.Decode ⟨data⟩).table.Glyphs, ∃ k, recordAt data k = some e)
      ∧ (∀ c g, mapGet (f.Decode ⟨data⟩).table.Glyphs c = some g →
          ∃ k, recordAt data k = some (c, g)) := by
  obtain ⟨s, hloop⟩ := Decode_ok_loop f data h
  have hent : ∀ e ∈ (f.Decode ⟨data⟩).table.Glyphs, ∃ k, recordAt data k = some e := by
    intro e he
    rcases decodeLoop_entries _ (data.drop 12) [] _ s (le_refl _) hloop e he with hmem | ⟨k, hk⟩
    · simp at hmem
    · refine ⟨k, ?_⟩
      rw [List.drop_drop] at hk
      simpa [recordAt, numHeaderBytes, bytesPerGlyph, Nat.add_comm] using hk
  exact ⟨hent, fun c g hg => hent (c, g) (mem_of_mapGet _ _ _ hg)⟩

/-- C10 at the stream of the records of `'A'` and `'B'`. -/
theorem Decode_entries_are_records_witness :
    (tableA.Decode ⟨knownSignature ++ sampleHeader ++ wireBytes [recordA, recordB]⟩).err = none
      ∧ (∀ e ∈ (tableA.Decode
            ⟨knownSignature ++ sampleHeader ++ wireBytes [recordA, recordB]⟩).table.Glyphs,
          ∃ k, recordAt (knownSignature ++ sampleHeader ++ wireBytes [recordA, recordB]) k
            = some e) :=
  have herr : (tableA.Decode
      ⟨knownSignature ++ sampleHeader ++ wireBytes [recordA, recordB]⟩).err = none := by
    rw [Decode_of_whole_records tableA sampleHeader [recordA, recordB] (by decide)]
  ⟨herr, (Decode_entries_are_records tableA _ herr).1⟩

/-! ## Further cases of Decode and of GetTextMetrics -/

/-- A text none of whose characters is a key leaves the four loop variables
at zero. -/
theorem metrics_absent (f : FontTable) (text : List Rune)
    (h : ∀ c ∈ text, mapGet f.Glyphs c = none) :
    text.foldl (metricsStep f) { width := 0, height := 0, lineWidth := 0, lineHeight := 0 }
      = { width := 0, height := 0, lineWidth := 0, lineHeight := 0 } := by
  induction text with
  | nil => rfl
  | cons c cs ih =>
    have hzero : addInt 0 0 = 0 := by decide
    have hstep : metricsStep f { width := 0, height := 0, lineWidth := 0, lineHeight := 0 } c
        = { width := 0, height := 0, lineWidth := 0, lineHeight := 0 } := by
      unfold metricsStep
      split
      · simp [max, hzero]
      · rw [h c (List.mem_cons_self _ _)]
    rw [List.foldl_cons, hstep]
    exact ih (fun c' hc' => h c' (List.mem_cons_of_mem _ hc'))

/-- The width variable of the loop of `GetTextMetrics` never falls below zero
once it is not below zero. -/
theorem metrics_width_nonneg (f : FontTable) (text : List Rune) :
    ∀ st : MetricsState, 0 ≤ st.width → 0 ≤ (text.foldl (metricsStep f) st).width := by
  induction text with
  | nil => intro st h; exact h
  | cons c cs ih =>
    intro st h
    rw [List.foldl_cons]
    apply ih
    unfold metricsStep
    split
    · simp only [max_eq]
      omega
    · split <;> exact h

/-- Two runs of the loop of `GetTextMetrics` over the same text, one started
with the width `w0` and the height `h0` already counted: the line variables
agree all along, the widths differ by a maximum with `w0`, the heights by the
addition of `h0`, wrapped around. -/
theorem metrics_shift (f : FontTable) (w0 h0 : Int) (text : List Rune) :
    ∀ s s' : MetricsState, s.lineWidth = s'.lineWidth → s.lineHeight = s'.lineHeight →
      s.width = Max.max w0 s'.width → s.height = wrapInt (h0 + s'.height) →
      (text.foldl (metricsStep f) s).lineWidth = (text.foldl (metricsStep f) s').lineWidth
        ∧ (text.foldl (metricsStep f) s).lineHeight = (text.foldl (metricsStep f) s').lineHeight
        ∧ (text.foldl (metricsStep f) s).width
            = Max.max w0 (text.foldl (metricsStep f) s').width
        ∧ (text.foldl (metricsStep f) s).height
            = wrapInt (h0 + (text.foldl (metricsStep f) s').height) := by
  induction text with
  | nil => intro s s' h1 h2 h3 h4; exact ⟨h1, h2, h3, h4⟩
  | cons c cs ih =>
    intro s s' h1 h2 h3 h4
    rw [List.foldl_cons, List.foldl_cons]
    apply ih
    · unfold metricsStep
      split
      · rfl
      · split
        · simp only [h1]
        · exact h1
    · unfold metricsStep
      split
      · rfl
      · split
        · simp only [h2]
        · exact h2
    · unfold metricsStep
      split
      · simp only [max_eq, h1, h3]
        omega
      · split
        · exact h3
        · exact h3
    · unfold metricsStep
      split
      · simp only [addInt, h2, h4]
        rw [wrapInt_add_left, wrapInt_add_right, add_assoc]
      · split
        · exact h4
        · exact h4

/-- The size of two texts joined by a newline, from the sizes of the two: the
maximum of the widths and the sum of the heights as Go adds them. -/
theorem metrics_newline (f : FontTable) (a b : List Rune) :
    f.GetTextMetrics (a ++ 10 :: b)
      = (max (f.GetTextMetrics a).1 (f.GetTextMetrics b).1,
         addInt (f.GetTextMetrics a).2 (f.GetTextMetrics b).2) := by
  unfold FontTable.GetTextMetrics
  simp only [List.foldl_append, List.foldl_cons]
  have hstep : ∀ st : MetricsState, metricsStep f st 10
      = { width := max st.width st.lineWidth, height := addInt st.height st.lineHeight,
          lineWidth := 0, lineHeight := 0 } := by
    intro st
    simp [metricsStep]
  rw [hstep]
  have hw := metrics_width_nonneg f a
    { width := 0, height := 0, lineWidth := 0, lineHeight := 0 } (le_refl _)
  have hrange := wrapInt_range
    ((a.foldl (metricsStep f)
        { width := 0, height := 0, lineWidth := 0, lineHeight := 0 }).height
      + (a.foldl (metricsStep f)
        { width := 0, height := 0, lineWidth := 0, lineHeight := 0 }).lineHeight)
  obtain ⟨h1, h2, h3, h4⟩ := metrics_shift f
    (max (a.foldl (metricsStep f)
        { width := 0, height := 0, lineWidth := 0, lineHeight := 0 }).width
      (a.foldl (metricsStep f)
        { width := 0, height := 0, lineWidth := 0, lineHeight := 0 }).lineWidth)
    (addInt (a.foldl (metricsStep f)
        { width := 0, height := 0, lineWidth := 0, lineHeight := 0 }).height
      (a.foldl (metricsStep f)
        { width := 0, height := 0, lineWidth := 0, lineHeight := 0 }).lineHeight)
    b
    { width := max (a.foldl (metricsStep f)
          { width := 0, height := 0, lineWidth := 0, lineHeight := 0 }).width
        (a.foldl (metricsStep f)
          { width := 0, height := 0, lineWidth := 0, lineHeight := 0 }).lineWidth,
      height := addInt (a.foldl (metricsStep f)
          { width := 0, height := 0, lineWidth := 0, lineHeight := 0 }).height
        (a.foldl (metricsStep f)
          { width := 0, height := 0, lineWidth := 0, lineHeight := 0 }).lineHeight,
      lineWidth := 0, lineHeight := 0 }
    { width := 0, height := 0, lineWidth := 0, lineHeight := 0 } rfl rfl
    (by simp only [max_eq]; omega)
    (by
      simp only [addInt, add_zero]
      exact (wrapInt_of_range _ hrange.1 hrange.2).symm)
  rw [h1, h2, h3, h4]
  simp only [max_eq, addInt]
  rw [wrapInt_add_left, wrapInt_add_right, add_assoc, Prod.mk.injEq]
  refine ⟨?_, rfl⟩
  omega

/-- What a run of bytes starts with, when it starts with a record, is within
the range of its fields: the code and the frame index are 16-bit numbers, the
width and the height are bytes, and the glyph is the one `newGlyph` builds. -/
theorem recordHead_bounds (bytes : List Byte) (e : Rune × FontGlyph)
    (h : recordHead bytes = some e) :
    0 ≤ e.1 ∧ e.1 ≤ 65535 ∧ 0 ≤ e.2.width ∧ e.2.width ≤ 255 ∧ 0 ≤ e.2.height
      ∧ e.2.height ≤ 255 ∧ 0 ≤ e.2.frame ∧ e.2.frame ≤ 65535
      ∧ e.2 = newGlyph e.2.frame e.2.width e.2.height := by
  unfold recordHead at h
  split at h
  · rename_i c0 c1 _ w hh _ _ _ r0 r1 _
    simp only [Option.some.injEq] at h
    subst h
    have := c0.isLt
    have := c1.isLt
    have := w.isLt
    have := hh.isLt
    have := r0.isLt
    have := r1.isLt
    refine ⟨?_, ?_, ?_, ?_, ?_, ?_, ?_, ?_, rfl⟩
    all_goals dsimp only [newGlyph]
    all_goals first
      | omega
      | (show (_ : Int) ≤ _
         omega)
  · simp at h

/-- Every entry of the table of a successful `Decode` is the record of one of
the 14-byte slots behind the 12 header bytes. -/
theorem Decode_entry_slot (f : FontTable) (data : List Byte)
    (h : (f.Decode ⟨data⟩).err = none) (e : Rune × FontGlyph)
    (he : e ∈ (f.Decode ⟨data⟩).table.Glyphs) : ∃ k, recordAt data k = some e := by
  obtain ⟨s, hloop⟩ := Decode_ok_loop f data h
  rcases decodeLoop_entries _ (data.drop 12) [] _ s (le_refl _) hloop e he with hmem | ⟨k, hk⟩
  · simp at hmem
  · refine ⟨k, ?_⟩
    rw [List.drop_drop] at hk
    simpa [recordAt, numHeaderBytes, bytesPerGlyph, Nat.add_comm] using hk

/-- The outcome of `Decode` is a matter of the first 5 bytes of the stream, of
its length and of its bytes from offset 12 on. -/
theorem Decode_header_irrelevant (f : FontTable) (d1 d2 : List Byte)
    (hlen : d1.length = d2.length) (hsig : d1.take 5 = d2.take 5)
    (hrest : d1.drop 12 = d2.drop 12) :
    (f.Decode ⟨d1⟩).err = (f.Decode ⟨d2⟩).err
      ∧ (f.Decode ⟨d1⟩).table = (f.Decode ⟨d2⟩).table := by
  by_cases h : d1.take 5 = knownSignature
  · have h' : d2.take 5 = knownSignature := hsig ▸ h
    have e1 : d1 = knownSignature ++ d1.drop 5 := by rw [← h, List.take_append_drop]
    have e2 : d2 = knownSignature ++ d2.drop 5 := by rw [← h', List.take_append_drop]
    have r1 : (d1.drop 5).drop 7 = d1.drop 12 := by rw [List.drop_drop]
    have r2 : (d2.drop 5).drop 7 = d2.drop 12 := by rw [List.drop_drop]
    rw [e1, e2, Decode_of_signature, Decode_of_signature, r1, r2, hrest]
    exact ⟨rfl, rfl⟩
  · have h' : d2.take 5 ≠ knownSignature := hsig ▸ h
    rw [Decode_of_bad_signature f d1 h, Decode_of_bad_signature f d2 h', hlen]
    exact ⟨rfl, rfl⟩

/-- Whole records and one byte behind them: `Decode` succeeds with the map
the records build, the byte ending the loop. -/
theorem Decode_of_trailing_byte (f : FontTable) (hdr : List Byte) (recs : List WireRecord)
    (b : Byte) (hhdr : hdr.length = 7) :
    f.Decode ⟨knownSignature ++ hdr ++ wireBytes recs ++ [b]⟩
      = { err := none,
          table := { Glyphs := recs.foldl (fun m r => mapSet m r.code r.glyph) [] },
          stream := ⟨[]⟩ } := by
  rw [Decode_of_records f hdr recs [b] hhdr, decodeLoop_stop [b] _ (by simp)]

/-- The loop over the first `n` bytes of a record, `n` at least 10 so that the
frame index is there: the glyph is stored and the loop ends. -/
theorem decodeLoop_short_filler3 (r : WireRecord) (n : Nat) (h10 : 10 ≤ n) (glyphs : GlyphMap) :
    decodeLoop ⟨r.bytes.take n⟩ glyphs = (.ok (mapSet glyphs r.code r.glyph), ⟨[]⟩) := by
  obtain ⟨k, rfl⟩ : ∃ k, n = 10 + k := ⟨n - 10, by omega⟩
  have hshape : r.bytes.take (10 + k)
      = r.code0 :: r.code1 :: r.filler1 :: r.width :: r.height :: r.filler2.1
          :: r.filler2.2.1 :: r.filler2.2.2 :: r.frame0 :: r.frame1
          :: ([r.filler3.1, r.filler3.2.1, r.filler3.2.2.1, r.filler3.2.2.2].take k) := by
    rw [Nat.add_comm]
    rfl
  have hdrop : ([r.filler3.1, r.filler3.2.1, r.filler3.2.2.1, r.filler3.2.2.2].take k).drop 4
      = [] := by
    apply List.drop_eq_nil_of_le
    rw [List.length_take]
    simp only [List.length_cons, List.length_nil]
    omega
  rw [hshape, decodeLoop_glyph, hdrop, decodeLoop_stop [] _ (by simp)]
  rfl

/-- Whole records and then a record that is there up to its frame index, with
any number of its last four filler bytes: `Decode` succeeds as on the stream in
which this record is whole. -/
theorem Decode_of_short_filler3 (f : FontTable) (hdr : List Byte) (recs : List WireRecord)
    (r : WireRecord) (n : Nat) (hhdr : hdr.length = 7) (h10 : 10 ≤ n) :
    f.Decode ⟨knownSignature ++ hdr ++ wireBytes recs ++ r.bytes.take n⟩
      = { err := none,
          table := { Glyphs := (recs ++ [r]).foldl (fun m r => mapSet m r.code r.glyph) [] },
          stream := ⟨[]⟩ } := by
  rw [Decode_of_records f hdr recs _ hhdr, decodeLoop_short_filler3 r n h10, List.foldl_append]
  rfl

/-- A stream of the signature and at most 8 further bytes: `Decode` succeeds
with the empty map. -/
theorem Decode_of_short_header (f : FontTable) (rest : List Byte) (h : rest.length ≤ 8) :
    f.Decode ⟨knownSignature ++ rest⟩
      = { err := none, table := { Glyphs := [] }, stream := ⟨[]⟩ } := by
  rw [Decode_of_signature, decodeLoop_stop _ _ (by rw [List.length_drop]; omega)]

/-! ## The claims, continued -/

/-- C11. For every table and every text none of whose characters is a key of
the table, `GetTextMetrics` returns `(0, 0)`; so it does for the empty text. -/
theorem GetTextMetrics_absent (f : FontTable) (text : List Rune)
    (h : ∀ c ∈ text, c ∉ mapKeys f.Glyphs) :
    f.GetTextMetrics text = (0, 0) ∧ f.GetTextMetrics [] = (0, 0) := by
  have hzero : ∀ t : List Rune, (∀ c ∈ t, mapGet f.Glyphs c = none) →
      f.GetTextMetrics t = (0, 0) := by
    intro t ht
    unfold FontTable.GetTextMetrics
    simp only [metrics_absent f t ht]
    decide
  exact ⟨hzero text (fun c hc => (mapGet_eq_none_iff _ _).mpr (h c hc)),
    hzero [] (fun c hc => by simp at hc)⟩

/-- C11 at the table of `'A'` and `'B'` and the text `"xy\nz"`. -/
theorem GetTextMetrics_absent_witness :
    (∀ c ∈ ([120, 121, 10, 122] : List Rune), c ∉ mapKeys tableAB.Glyphs)
      ∧ tableAB.GetTextMetrics [120, 121, 10, 122] = (0, 0) :=
  ⟨by decide, (GetTextMetrics_absent tableAB [120, 121, 10, 122] (by decide)).1⟩

/-- C12 (fails as stated). The stream of the single record of `'C'`, whose
filler bytes are 7, then 8, 9, 10, then 11, 12, 13, 14, decodes to a glyph
whose fillers are 0, then 1, 0, 0, then 1, 0, 0, 0, and these are the bytes
`Encode` writes for it: the filler bytes of the stream are not kept. -/
theorem Decode_recordC_fillers_lost :
    tableA.Decode ⟨knownSignature ++ sampleHeader ++ wireBytes [recordC]⟩
        = { err := none, table := { Glyphs := [(67, newGlyph 5 9 11)] }, stream := ⟨[]⟩ }
      ∧ lastWithCode [recordC] 67 = some recordC
      ∧ recordC.filler1 = 7 ∧ (newGlyph 5 9 11).Unknown1 = [0]
      ∧ recordC.filler2 = (8, 9, 10) ∧ (newGlyph 5 9 11).Unknown2 = [1, 0, 0]
      ∧ recordC.filler3 = (11, 12, 13, 14) ∧ (newGlyph 5 9 11).Unknown3 = [1, 0, 0, 0]
      ∧ encodedRecord (67, newGlyph 5 9 11) = [67, 0, 9, 11, 1, 0, 0, 5, 1, 0, 0, 0] := by
  refine ⟨?_, by decide, by decide, by decide, by decide, by decide, by decide, by decide,
    by decide⟩
  rw [Decode_of_whole_records tableA sampleHeader [recordC] (by decide)]
  decide

/-- C12 as amended. `Decode` does not keep the filler bytes. For every stream
of the signature, 7 header bytes and whole records, and every record of it that
is the last one with its character code: the glyph stored for it is the one
`newGlyph` builds from the frame index, the width and the height of the record,
whatever the filler bytes of the record are; its fillers are the ones `newGlyph`
sets, and these are what `Encode` writes for it. -/
theorem Decode_glyph_from_three_fields (f : FontTable) (hdr : List Byte)
    (recs : List WireRecord) (c : Rune) (r : WireRecord) (hhdr : hdr.length = 7)
    (hlast : lastWithCode recs c = some r) :
    mapGet (f.Decode ⟨knownSignature ++ hdr ++ wireBytes recs⟩).table.Glyphs c
        = some (newGlyph r.frame (r.width.val : Int) (r.height.val : Int))
      ∧ (newGlyph r.frame (r.width.val : Int) (r.height.val : Int)).Unknown1 = [0]
      ∧ (newGlyph r.frame (r.width.val : Int) (r.height.val : Int)).Unknown2 = [1, 0, 0]
      ∧ (newGlyph r.frame (r.width.val : Int) (r.height.val : Int)).Unknown3 = [1, 0, 0, 0]
      ∧ encodedRecord (c, newGlyph r.frame (r.width.val : Int) (r.height.val : Int))
          = [byte c, 0, byte (r.width.val : Int), byte (r.height.val : Int), 1, 0, 0,
             byte r.frame, 1, 0, 0, 0] := by
  refine ⟨?_, rfl, rfl, rfl, rfl⟩
  rw [Decode_of_whole_records f hdr recs hhdr]
  simp only []
  rw [mapGet_foldl_records, hlast]
  rfl

/-- C12 as amended, at the stream of the records of `'A'`, `'C'` and `'A'`
again. -/
theorem Decode_glyph_from_three_fields_witness :
    sampleHeader.length = 7 ∧ lastWithCode [recordA, recordC, recordA2] 67 = some recordC
      ∧ mapGet (tableA.Decode
            ⟨knownSignature ++ sampleHeader ++ wireBytes [recordA, recordC, recordA2]⟩).table.Glyphs
          67 = some (newGlyph 5 9 11) :=
  ⟨by decide, by decide,
    (Decode_glyph_from_three_fields tableA sampleHeader [recordA, recordC, recordA2] 67 recordC
      (by decide) (by decide)).1⟩

/-- C13. For the table with the glyph `'A'` of width 10 and height 12 and the
glyph `'B'` of width 8 and height 15, whatever their frame indices and fillers:
`GetTextMetrics("AB")` is `(18, 15)` and `GetTextMetrics("A\nB")` is `(10, 27)`. -/
theorem GetTextMetrics_AB (fa fb : Int) (a1 b1 : Byte) (a2 b2 : Byte × Byte × Byte)
    (a3 b3 : Byte × Byte × Byte × Byte) :
    FontTable.GetTextMetrics
        { Glyphs := [(65, { unknown1 := a1, unknown2 := a2, unknown3 := a3, frame := fa,
                            width := 10, height := 12 }),
                     (66, { unknown1 := b1, unknown2 := b2, unknown3 := b3, frame := fb,
                            width := 8, height := 15 })] }
        [65, 66] = (18, 15)
      ∧ FontTable.GetTextMetrics
        { Glyphs := [(65, { unknown1 := a1, unknown2 := a2, unknown3 := a3, frame := fa,
                            width := 10, height := 12 }),
                     (66, { unknown1 := b1, unknown2 := b2, unknown3 := b3, frame := fb,
                            width := 8, height := 15 })] }
        [65, 10, 66] = (10, 27) := by
  constructor <;>
    simp [FontTable.GetTextMetrics, metricsStep, mapGet, max, FontGlyph.Width, FontGlyph.Height,
      addInt, wrapInt]

/-- C14 (fails as stated). The stream of the signature, a header and the first
ten bytes of the record of `'A'`, which is complete through its frame index and
has none of its last four filler bytes: `Decode` succeeds, and the glyph of
`'A'` is in the table. -/
theorem Decode_admits_record_without_filler3 :
    tableAB.Decode ⟨knownSignature ++ sampleHeader ++ [65, 0, 0, 10, 12, 1, 0, 0, 3, 0]⟩
        = { err := none, table := { Glyphs := [(65, newGlyph 3 10 12)] }, stream := ⟨[]⟩ }
      ∧ recordA.bytes.take 10 = [65, 0, 0, 10, 12, 1, 0, 0, 3, 0] := by
  refine ⟨?_, by decide⟩
  show tableAB.Decode ⟨knownSignature ++ sampleHeader ++ wireBytes [] ++ recordA.bytes.take 10⟩
    = _
  rw [Decode_of_short_filler3 tableAB sampleHeader [] recordA 10 (by decide) (by decide)]
  decide

/-- C14 as amended. For every stream of the signature, 7 header bytes, whole
records and the first `n` bytes of a further record: when the record is cut
inside its three middle filler bytes (`n` from 5 to 7), `Decode` returns an
error and the table is as before; when the record is complete through its frame
index and lacks some or all of its last four filler bytes (`n` from 10 to 13),
`Decode` succeeds as on the stream in which that record is whole, and the glyph
of the record is in the table. The failure of a filler read is not looked at. -/
theorem Decode_cut_in_fillers (f : FontTable) (hdr : List Byte) (recs : List WireRecord)
    (r : WireRecord) (n : Nat) (hhdr : hdr.length = 7) :
    (5 ≤ n → n < 8 →
        f.Decode ⟨knownSignature ++ hdr ++ wireBytes recs ++ r.bytes.take n⟩
          = { err := some .shortRead, table := f, stream := ⟨[]⟩ })
      ∧ (10 ≤ n → n < 14 →
        (f.Decode ⟨knownSignature ++ hdr ++ wireBytes recs ++ r.bytes.take n⟩).err = none
          ∧ f.Decode ⟨knownSignature ++ hdr ++ wireBytes recs ++ r.bytes.take n⟩
              = f.Decode ⟨knownSignature ++ hdr ++ wireBytes (recs ++ [r])⟩
          ∧ mapGet (f.Decode
                ⟨knownSignature ++ hdr ++ wireBytes recs ++ r.bytes.take n⟩).table.Glyphs r.code
              = some r.glyph) := by
  constructor
  · intro h5 h8
    have hlen : (r.bytes.take n).length = n := by
      rw [List.length_take]
      simp only [WireRecord.bytes, List.length_cons, List.length_nil]
      omega
    exact Decode_of_cut_record f hdr recs _ hhdr (by omega) (by omega)
  · intro h10 _
    rw [Decode_of_short_filler3 f hdr recs r n hhdr h10,
      Decode_of_whole_records f hdr (recs ++ [r]) hhdr]
    refine ⟨rfl, rfl, ?_⟩
    simp only []
    rw [mapGet_foldl_records]
    simp [lastWithCode]

/-- C14 as amended, at the record of `'B'` cut behind the record of `'A'`:
after 6 of its bytes the call fails, after 12 of them it succeeds. -/
theorem Decode_cut_in_fillers_witness :
    sampleHeader.length = 7
      ∧ tableA.Decode ⟨knownSignature ++ sampleHeader ++ wireBytes [recordA]
            ++ recordB.bytes.take 6⟩
          = { err := some .shortRead, table := tableA, stream := ⟨[]⟩ }
      ∧ (tableA.Decode ⟨knownSignature ++ sampleHeader ++ wireBytes [recordA]
            ++ recordB.bytes.take 12⟩).err = none :=
  ⟨by decide,
    (Decode_cut_in_fillers tableA sampleHeader [recordA] recordB 6 (by decide)).1
      (by decide) (by decide),
    ((Decode_cut_in_fillers tableA sampleHeader [recordA] recordB 12 (by decide)).2
      (by decide) (by decide)).1⟩

/-- C15 (fails as stated). The stream of the signature, a header, the whole
record of `'A'` and one further byte: `Decode` returns no error, and the table
is the one of the record of `'A'`. -/
theorem Decode_accepts_trailing_byte :
    tableAB.Decode ⟨knownSignature ++ sampleHeader ++ wireBytes [recordA] ++ [66]⟩
      = { err := none, table := { Glyphs := [(65, newGlyph 3 10 12)] }, stream := ⟨[]⟩ } := by
  rw [Decode_of_trailing_byte tableAB sampleHeader [recordA] 66 (by decide)]
  decide

/-- C15 as amended. Any failure to read the character code ends the record
loop with success, not only a clean end of the stream: for every stream of the
signature, 7 header bytes, whole records and exactly one further byte, `Decode`
returns no error and gives the table it gives for the stream without that
byte. -/
theorem Decode_trailing_byte (f : FontTable) (hdr : List Byte) (recs : List WireRecord)
    (b : Byte) (hhdr : hdr.length = 7) :
    (f.Decode ⟨knownSignature ++ hdr ++ wireBytes recs ++ [b]⟩).err = none
      ∧ f.Decode ⟨knownSignature ++ hdr ++ wireBytes recs ++ [b]⟩
          = f.Decode ⟨knownSignature ++ hdr ++ wireBytes recs⟩ := by
  rw [Decode_of_trailing_byte f hdr recs b hhdr, Decode_of_whole_records f hdr recs hhdr]
  exact ⟨rfl, rfl⟩

/-- C15 as amended, at the records of `'A'` and `'B'` and the further byte 67. -/
theorem Decode_trailing_byte_witness :
    sampleHeader.length = 7
      ∧ (tableA.Decode
          ⟨knownSignature ++ sampleHeader ++ wireBytes [recordA, recordB] ++ [67]⟩).err = none :=
  ⟨by decide, (Decode_trailing_byte tableA sampleHeader [recordA, recordB] 67 (by decide)).1⟩

/-- C16. For every two streams of equal length that agree on their first 5
bytes and on their bytes from offset 12 on, so that they differ at offsets 5 to
11 at most, `Decode` returns the same error, or none for both, and leaves the
same table. -/
theorem Decode_ignores_header (f : FontTable) (d1 d2 : List Byte)
    (hlen : d1.length = d2.length) (hsig : d1.take 5 = d2.take 5)
    (hrest : d1.drop 12 = d2.drop 12) :
    (f.Decode ⟨d1⟩).err = (f.Decode ⟨d2⟩).err
      ∧ (f.Decode ⟨d1⟩).table = (f.Decode ⟨d2⟩).table :=
  Decode_header_irrelevant f d1 d2 hlen hsig hrest

/-- C16 at two streams of the records of `'A'` and `'B'` with headers that
differ in every byte. -/
theorem Decode_ignores_header_witness :
    (knownSignature ++ sampleHeader ++ wireBytes [recordA, recordB]).length
        = (knownSignature ++ [9, 8, 7, 6, 5, 4, 3] ++ wireBytes [recordA, recordB]).length
      ∧ (tableA.Decode ⟨knownSignature ++ sampleHeader ++ wireBytes [recordA, recordB]⟩).table
        = (tableA.Decode
            ⟨knownSignature ++ [9, 8, 7, 6, 5, 4, 3] ++ wireBytes [recordA, recordB]⟩).table :=
  ⟨by decide,
    (Decode_ignores_header tableA
      (knownSignature ++ sampleHeader ++ wireBytes [recordA, recordB])
      (knownSignature ++ [9, 8, 7, 6, 5, 4, 3] ++ wireBytes [recordA, recordB])
      (by decide) (by decide) (by decide)).2⟩

/-- C17. For every table and every two texts `a` and `b`, the size of `a`,
a newline and `b` is the maximum of the two widths and the sum of the two
heights, the sum being the one Go forms on `int`; when the sum of the two
heights is in the range of `int`, it is their sum as numbers. -/
theorem GetTextMetrics_newline (f : FontTable) (a b : List Rune) :
    f.GetTextMetrics (a ++ 10 :: b)
        = (max (f.GetTextMetrics a).1 (f.GetTextMetrics b).1,
           addInt (f.GetTextMetrics a).2 (f.GetTextMetrics b).2)
      ∧ ((-9223372036854775808 ≤ (f.GetTextMetrics a).2 + (f.GetTextMetrics b).2
            ∧ (f.GetTextMetrics a).2 + (f.GetTextMetrics b).2 < 9223372036854775808) →
          f.GetTextMetrics (a ++ 10 :: b)
            = (max (f.GetTextMetrics a).1 (f.GetTextMetrics b).1,
               (f.GetTextMetrics a).2 + (f.GetTextMetrics b).2)) := by
  refine ⟨metrics_newline f a b, fun hr => ?_⟩
  rw [metrics_newline f a b, addInt, wrapInt_of_range _ hr.1 hr.2]

/-- C17 at the table of `'A'` and `'B'` and the texts `"AB"` and `"B\nA"`:
the sizes (18, 15) and (10, 27) give (18, 42). -/
theorem GetTextMetrics_newline_witness :
    tableAB.GetTextMetrics ([65, 66] ++ 10 :: [66, 10, 65]) = (18, 42)
      ∧ tableAB.GetTextMetrics [65, 66] = (18, 15)
      ∧ tableAB.GetTextMetrics [66, 10, 65] = (10, 27) :=
  ⟨((GetTextMetrics_newline tableAB [65, 66] [66, 10, 65]).2 (by decide)).trans (by decide),
    by decide, by decide⟩

/-- C18. For every stream on which `Decode` succeeds, every key of the table
lies in 0..65535, and every glyph of it is the one `newGlyph` builds from a
frame index in 0..65535 and a width and a height in 0..255. -/
theorem Decode_entries_in_range (f : FontTable) (data : List Byte)
    (h : (f.Decode ⟨data⟩).err = none) :
    ∀ e ∈ (f.Decode ⟨data⟩).table.Glyphs,
      0 ≤ e.1 ∧ e.1 ≤ 65535 ∧ 0 ≤ e.2.width ∧ e.2.width ≤ 255 ∧ 0 ≤ e.2.height
        ∧ e.2.height ≤ 255 ∧ 0 ≤ e.2.frame ∧ e.2.frame ≤ 65535
        ∧ e.2 = newGlyph e.2.frame e.2.width e.2.height := by
  intro e he
  obtain ⟨k, hk⟩ := Decode_entry_slot f data h e he
  exact recordHead_bounds _ e hk

/-- C18 at the stream of the records of `'A'`, `'C'` and `'B'`. -/
theorem Decode_entries_in_range_witness :
    (tableA.Decode ⟨knownSignature ++ sampleHeader ++ wireBytes [recordA, recordC, recordB]⟩).err
        = none
      ∧ ∀ e ∈ (tableA.Decode
            ⟨knownSignature ++ sampleHeader ++ wireBytes [recordA, recordC, recordB]⟩).table.Glyphs,
          0 ≤ e.1 ∧ e.1 ≤ 65535 ∧ 0 ≤ e.2.width ∧ e.2.width ≤ 255 ∧ 0 ≤ e.2.height
            ∧ e.2.height ≤ 255 ∧ 0 ≤ e.2.frame ∧ e.2.frame ≤ 65535
            ∧ e.2 = newGlyph e.2.frame e.2.width e.2.height :=
  have herr : (tableA.Decode
      ⟨knownSignature ++ sampleHeader ++ wireBytes [recordA, recordC, recordB]⟩).err = none := by
    rw [Decode_of_whole_records tableA sampleHeader [recordA, recordC, recordB] (by decide)]
  ⟨herr, Decode_entries_in_range tableA _ herr⟩

/-- C19. For the empty table and every sink that accepts every write, `Encode`
returns no error and hands over 13 bytes: the signature and the 8 header bytes.
`Decode` of these 13 bytes succeeds, whatever the table held before, and leaves
the empty table: behind the signature it skips 7 bytes, and the one byte left
ends the record loop. -/
theorem Encode_Decode_empty {σ : Type} (W : Writer σ) (sw : σ) (f : FontTable)
    (hacc : (∀ s bs, (W.WriteBytes s bs).2 = none) ∧ (∀ s b, (W.WriteByte s b).2 = none)) :
    (FontTable.Encode W { Glyphs := [] } sw).2 = none
      ∧ emitted (encodeTrace W { Glyphs := [] } sw)
          = [87, 111, 111, 33, 1, 1, 0, 0, 0, 0, 1, 0, 0]
      ∧ f.Decode ⟨emitted (encodeTrace W { Glyphs := [] } sw)⟩
          = { err := none, table := { Glyphs := [] }, stream := ⟨[]⟩ } := by
  obtain ⟨herr, hbytes⟩ := Encode_emitted W hacc.1 { Glyphs := [] } sw
  have hbytes' : emitted (encodeTrace W { Glyphs := [] } sw)
      = knownSignature ++ [1, 0, 0, 0, 0, 1, 0, 0] := by
    rw [hbytes]
    simp
  refine ⟨herr, by rw [hbytes']; rfl, ?_⟩
  rw [hbytes']
  exact Decode_of_short_header f _ (by decide)

/-- C19 at the sink `bufferWriter`, which ends up holding the 13 bytes, and
the table of `'A'` and `'B'` to decode into. -/
theorem Encode_Decode_empty_witness :
    ((∀ s bs, (bufferWriter.WriteBytes s bs).2 = none)
        ∧ (∀ s b, (bufferWriter.WriteByte s b).2 = none))
      ∧ FontTable.Encode bufferWriter { Glyphs := [] } []
          = ([87, 111, 111, 33, 1, 1, 0, 0, 0, 0, 1, 0, 0], none)
      ∧ tableAB.Decode ⟨emitted (encodeTrace bufferWriter { Glyphs := [] } [])⟩
          = { err := none, table := { Glyphs := [] }, stream := ⟨[]⟩ } :=
  ⟨⟨fun _ _ => rfl, fun _ _ => rfl⟩, by decide,
    (Encode_Decode_empty bufferWriter [] tableAB ⟨fun _ _ => rfl, fun _ _ => rfl⟩).2.2⟩

/-- C20. For every stream of the signature and at most 8 further bytes, so
also when fewer than the 7 header bytes are there, `Decode` returns no error
and sets the glyphs of the table to the empty map. -/
theorem Decode_short_header (f : FontTable) (rest : List Byte) (h : rest.length ≤ 8) :
    f.Decode ⟨knownSignature ++ rest⟩
      = { err := none, table := { Glyphs := [] }, stream := ⟨[]⟩ } :=
  Decode_of_short_header f rest h

/-- C20 at the signature followed by three bytes, decoded into the table of
`'A'` and `'B'`. -/
theorem Decode_short_header_witness :
    ([1, 0, 0] : List Byte).length ≤ 8
      ∧ tableAB.Decode ⟨knownSignature ++ [1, 0, 0]⟩
          = { err := none, table := { Glyphs := [] }, stream := ⟨[]⟩ } :=
  ⟨by decide, Decode_short_header tableAB [1, 0, 0] (by decide)⟩

end TblFont
